import Mathlib

set_option maxHeartbeats 1000000

/-!
Shallow embedding of `src/run.ts`, a bounded-concurrency task scheduler.

The source is a single async function `run(executor, queue, maxThreads)`:

* lines 9-10: `maxThreads = Math.max(0, maxThreads)`;
  `concurrencyLimit = maxThreads > 0 ? maxThreads : Infinity`.
* lines 12-15: state `activeTargets : Set<number>`,
  `activePromises : Set<Promise<void>>`, `pendingTasks : Map<number, ITask[]>`,
  and a single `iterator` obtained from the queue.
* lines 17-28 `executeTask`: adds the task's target to `activeTargets`, starts
  the executor, adds the promise to `activePromises`, and on settlement
  (success or failure, via `finally`) removes both and calls `processNext()`
  (not awaited: a fresh re-entrant invocation).
* lines 30-71 `processNext`: a loop of three blocks.
  Block 1 (33-47): while `activePromises.size < concurrencyLimit` and
  `pendingTasks.size > 0`, scan the map in insertion order for the first entry
  whose target is not active and whose list is non-empty; shift its head,
  delete the key if the list became empty, and launch the task.
  Block 2 (50-66): if there is capacity or no pending backlog, `await
  iterator.next()`; a received task is launched if its target is free and
  capacity remains, otherwise appended to its target's pending list; on `done`,
  return when nothing is in flight and nothing is pending.
  Block 3 (69): `await Promise.race(activePromises)`.

Execution model.  JavaScript async functions run atomically between `await`
points (run-to-completion microtasks).  We therefore embed each synchronous
segment of `processNext` as a pure function on a scheduler state, and drive
the system by a list of external events, each of which runs the affected
segment atomically:

* `Ev.deliver` — the front outstanding `iterator.next()` call resolves with
  the next source item (or with `done` when the source is exhausted) and the
  suspended invocation resumes.  Outstanding pulls are served FIFO, as an
  async generator serves queued `next()` calls.
* `Ev.complete t ok` — the executor promise of in-flight task `t` settles
  (fulfilled when `ok`, rejected otherwise).  Its first reaction is the
  `await promise` continuation inside `executeTask` (subscribed at launch
  time, hence before any `Promise.race` over a set containing the promise):
  the `finally` frees the target, removes the promise, and synchronously runs
  a fresh `processNext` invocation up to its first suspension.  Every
  invocation suspended on a `Promise.race` whose snapshot contains `t` has its
  race settled with the same outcome and is marked wakeable.
* `Ev.wake i` — the microtask resuming invocation `i` from its settled
  `Promise.race` runs.  If the race was settled by a rejected promise the
  `await` throws and the invocation dies rejected (`crashed`); for invocation
  0 — the one `run` awaits at line 73 — this rejects `run` itself.

Tasks are identified by their index in the source; a task's only
scheduling-relevant attribute is its `targetId`, so the source is a
`List Nat` of target ids (`payload` is opaque and passed through unchanged).
The state additionally records `started` (executor invocations, in call
order) and `completedL` (settlements, in order) as history variables.
-/

/-- Configuration of one `run` call: the (finite) source, as the list of the
tasks' target ids, and the normalized concurrency limit, `0` standing for the
`Infinity` sentinel of line 10. -/
structure Cfg where
  tgts : List Nat
  limit : Nat
deriving DecidableEq, Repr

/-- Lines 9-10: `Math.max(0, maxThreads)`; `maxThreads > 0 ? maxThreads :
Infinity`.  A non-positive argument yields the unbounded sentinel `0`. -/
def normalizeLimit (maxThreads : Int) : Nat := (max 0 maxThreads).toNat

/-- The configuration built from `run`'s raw arguments. -/
def mkCfg (tgts : List Nat) (maxThreads : Int) : Cfg :=
  ⟨tgts, normalizeLimit maxThreads⟩

/-- `activePromises.size < concurrencyLimit`, with `limit = 0` standing for
`Infinity` (the comparison is then always true). -/
def sizeLt (n : Nat) (limit : Nat) : Bool := limit == 0 || decide (n < limit)

/-- `task.targetId` of the task at source index `i`. -/
def tgtOf (cfg : Cfg) (i : Nat) : Nat := cfg.tgts.getD i 0

/-- The scheduler state between microtasks. -/
structure Sched where
  /-- how many source items have been handed out (the iterator's position) -/
  cursor : Nat
  /-- `pendingTasks`: JS `Map` = association list in key-insertion order -/
  pending : List (Nat × List Nat)
  /-- `activePromises`: the in-flight tasks, in insertion order -/
  inflight : List Nat
  /-- `activeTargets` -/
  activeT : List Nat
  /-- invocations of `processNext` suspended at `await iterator.next()`,
  in call order (= outstanding pulls) -/
  pullQ : List Nat
  /-- invocations suspended at `await Promise.race(...)`: id, the snapshot of
  `activePromises` passed to the race, and `some ok` once the race settled -/
  racers : List (Nat × List Nat × Option Bool)
  /-- id supply for re-entrant `processNext` invocations; invocation 0 is the
  call at line 73 that `run` awaits -/
  nextInst : Nat
  /-- invocations that returned normally -/
  finished : List Nat
  /-- invocations that died of a rejected `await Promise.race` -/
  crashed : List Nat
  /-- history: executor invocations, in order (line 19) -/
  started : List Nat
  /-- history: settled tasks, in order -/
  completedL : List Nat
deriving DecidableEq, Repr

/-- `Map.get` on `pendingTasks`, `[]` for a missing key. -/
def pget (T : Nat) : List (Nat × List Nat) → List Nat
  | [] => []
  | (U, ts) :: rest => if U = T then ts else pget T rest

/-- Lines 57-59: `(pendingTasks.get(t) || []).push(task); pendingTasks.set(...)`.
Setting an existing key keeps its position; a new key is appended at the end. -/
def pset (T : Nat) (i : Nat) : List (Nat × List Nat) → List (Nat × List Nat)
  | [] => [(T, [i])]
  | (U, ts) :: rest =>
    if U = T then (U, ts ++ [i]) :: rest else (U, ts) :: pset T i rest

/-- Total number of queued tasks in `pendingTasks`. -/
def pendCount (p : List (Nat × List Nat)) : Nat :=
  (p.map (fun e => e.2.length)).sum

/-- Lines 35-41: scan the map in iteration order for the first entry whose
target is not active and whose list is non-empty; shift its head and delete
the key if the list became empty.  Returns the target, the task and the
updated map. -/
def scanPromote (act : List Nat) :
    List (Nat × List Nat) → Option (Nat × Nat × List (Nat × List Nat))
  | [] => none
  | (T, ts) :: rest =>
    if T ∈ act ∨ ts = [] then
      match scanPromote act rest with
      | some (U, i, rest') => some (U, i, (T, ts) :: rest')
      | none => none
    else
      match ts with
      | [] => none
      | h :: tl => some (T, h, if tl = [] then rest else (T, tl) :: rest)

/-- `Set.add`: insert if absent (all call sites guard on absence anyway). -/
def sAdd (T : Nat) (l : List Nat) : List Nat := if T ∈ l then l else T :: l

/-- The synchronous prefix of `executeTask` (lines 17-20): mark the target
active, invoke the executor (recorded in `started`), add the promise to
`activePromises`.  The rest of `executeTask` runs at settlement time. -/
def executeTask (cfg : Cfg) (i : Nat) (s : Sched) : Sched :=
  { s with activeT := sAdd (tgtOf cfg i) s.activeT,
           started := s.started ++ [i],
           inflight := s.inflight ++ [i] }

/-- Block 1 (lines 33-47): promote from `pendingTasks` while there is
capacity and a promotable entry.  Each promotion removes one queued task, so
`pendCount s.pending` steps of fuel run the loop to quiescence. -/
def promoteLoop (cfg : Cfg) : Nat → Sched → Sched
  | 0, s => s
  | fuel + 1, s =>
    if sizeLt s.inflight.length cfg.limit && !s.pending.isEmpty then
      match scanPromote s.activeT s.pending with
      | some (_, i, p') =>
        promoteLoop cfg fuel (executeTask cfg i { s with pending := p' })
      | none => s
    else s

/-- One `processNext` iteration from the top of the `while` (line 31) to the
next suspension: Block 1 to quiescence, then either suspend at
`await iterator.next()` (line 51, Block 2 entered) or at
`await Promise.race(activePromises)` (line 69, Block 2 skipped).  `i` is the
invocation's id. -/
def processNextTop (cfg : Cfg) (i : Nat) (s : Sched) : Sched :=
  let s1 := promoteLoop cfg (pendCount s.pending) s
  if sizeLt s1.inflight.length cfg.limit || s1.pending.isEmpty then
    { s1 with pullQ := s1.pullQ ++ [i] }
  else
    { s1 with racers := s1.racers ++ [(i, s1.inflight, none)] }

/-- Resumption of invocation `i` after its `iterator.next()` resolved with
task `idx` (lines 52-61): launch if the target is free and capacity remains,
else append to the target's pending list; then `continue` to the loop top. -/
def processNextItem (cfg : Cfg) (i : Nat) (idx : Nat) (s : Sched) : Sched :=
  if tgtOf cfg idx ∉ s.activeT ∧ sizeLt s.inflight.length cfg.limit then
    processNextTop cfg i (executeTask cfg idx s)
  else
    processNextTop cfg i { s with pending := pset (tgtOf cfg idx) idx s.pending }

/-- Resumption of invocation `i` after its `iterator.next()` resolved with
`done` (lines 63-69): return if nothing is in flight and nothing is pending,
otherwise fall through to `await Promise.race(activePromises)`. -/
def processNextDone (cfg : Cfg) (i : Nat) (s : Sched) : Sched :=
  if s.inflight.isEmpty && s.pending.isEmpty then
    { s with finished := s.finished ++ [i] }
  else
    { s with racers := s.racers ++ [(i, s.inflight, none)] }

/-- At the settlement of task `t`'s promise, every pending `Promise.race`
whose snapshot contains the promise settles with the same outcome. -/
def settleRacers (t : Nat) (ok : Bool) :
    List (Nat × List Nat × Option Bool) → List (Nat × List Nat × Option Bool) :=
  List.map fun r => if t ∈ r.2.1 ∧ r.2.2 = none then (r.1, r.2.1, some ok) else r

/-- Settlement of in-flight task `t` (outcome `ok`).  The first reaction is
`executeTask`'s continuation (lines 23-27): the `finally` removes the target
and the promise — identically for success and failure — and calls
`processNext()`, a fresh invocation running synchronously to its first
suspension.  Races snapshotting the promise settle with the same outcome. -/
def stepComplete (cfg : Cfg) (t : Nat) (ok : Bool) (s : Sched) : Sched :=
  if t ∈ s.inflight then
    let s1 : Sched :=
      { s with activeT := s.activeT.erase (tgtOf cfg t),
               inflight := s.inflight.erase t,
               completedL := s.completedL ++ [t],
               racers := settleRacers t ok s.racers }
    processNextTop cfg s1.nextInst { s1 with nextInst := s1.nextInst + 1 }
  else s

/-- The source answers the front outstanding `iterator.next()` call: with the
item at the cursor if any (the resumed invocation runs lines 52-61 and loops),
with `done` otherwise (lines 63-69). -/
def stepDeliver (cfg : Cfg) (s : Sched) : Sched :=
  match s.pullQ with
  | [] => s
  | i :: rest =>
    if s.cursor < cfg.tgts.length then
      processNextItem cfg i s.cursor { s with pullQ := rest, cursor := s.cursor + 1 }
    else
      processNextDone cfg i { s with pullQ := rest }

/-- The settled outcome of invocation `i`'s race, if any. -/
def findSettled (i : Nat) : List (Nat × List Nat × Option Bool) → Option Bool
  | [] => none
  | r :: rest => if r.1 = i ∧ r.2.2.isSome then r.2.2 else findSettled i rest

/-- Drop invocation `i` from the suspended racers. -/
def removeRacer (i : Nat) (rs : List (Nat × List Nat × Option Bool)) :
    List (Nat × List Nat × Option Bool) :=
  rs.filter fun r => r.1 != i

/-- The microtask resuming invocation `i` from its settled race: on a
fulfilled outcome the loop continues at the top (Block 1); on a rejected
outcome the `await` at line 69 throws and the invocation's promise rejects. -/
def stepWake (cfg : Cfg) (i : Nat) (s : Sched) : Sched :=
  match findSettled i s.racers with
  | some ok =>
    let s1 := { s with racers := removeRacer i s.racers }
    if ok then processNextTop cfg i s1 else { s1 with crashed := s1.crashed ++ [i] }
  | none => s

/-- External events: a source delivery, a task settlement, a race wake-up. -/
inductive Ev where
  | deliver : Ev
  | complete : Nat → Bool → Ev
  | wake : Nat → Ev
deriving DecidableEq, Repr

/-- One external event.  An event whose precondition fails (no outstanding
pull, task not in flight, race not settled) changes nothing. -/
def step (cfg : Cfg) (s : Sched) : Ev → Sched
  | .deliver => stepDeliver cfg s
  | .complete t ok => stepComplete cfg t ok s
  | .wake i => stepWake cfg i s

/-- The empty scheduler state of lines 12-15. -/
def run0 : Sched := ⟨0, [], [], [], [], [], 1, [], [], [], []⟩

/-- Line 73: `run` starts invocation 0 of `processNext`, which runs
synchronously to its first suspension. -/
def initState (cfg : Cfg) : Sched := processNextTop cfg 0 run0

/-- The state after a sequence of external events. -/
def exec (cfg : Cfg) (evs : List Ev) : Sched := evs.foldl (step cfg) (initState cfg)

/-- Whether event `e` is enabled (its JS trigger can actually fire) in `s`. -/
def enabledB (s : Sched) : Ev → Bool
  | .deliver => !s.pullQ.isEmpty
  | .complete t _ => decide (t ∈ s.inflight)
  | .wake i => (findSettled i s.racers).isSome

/-- A schedule all of whose events are enabled when they fire. -/
def ValidFrom (cfg : Cfg) (s : Sched) : List Ev → Prop
  | [] => True
  | e :: rest => enabledB s e = true ∧ ValidFrom cfg (step cfg s e) rest

/-- Tasks of target `T` delivered by the source so far (cursor `c`), in
arrival order. -/
def arrivals (cfg : Cfg) (c : Nat) (T : Nat) : List Nat :=
  (List.range c).filter fun i => tgtOf cfg i == T

/-- All invocation ids present in the bookkeeping, each exactly once in a
healthy state. -/
def instL (s : Sched) : List Nat :=
  s.pullQ ++ s.racers.map (fun r => r.1) ++ s.finished ++ s.crashed

theorem mem_arrivals {cfg : Cfg} {c T i : Nat} :
    i ∈ arrivals cfg c T ↔ i < c ∧ tgtOf cfg i = T := by
  simp [arrivals, List.mem_filter, List.mem_range]

theorem arrivals_succ (cfg : Cfg) (c T : Nat) :
    arrivals cfg (c + 1) T
      = arrivals cfg c T ++ if tgtOf cfg c = T then [c] else [] := by
  simp only [arrivals, List.range_succ, List.filter_append]
  by_cases h : tgtOf cfg c = T <;> simp [h]

theorem arrivals_sorted (cfg : Cfg) (c T : Nat) :
    (arrivals cfg c T).Pairwise (· < ·) :=
  (List.pairwise_lt_range c).sublist (List.filter_sublist _)

theorem mem_sAdd {T x : Nat} {l : List Nat} :
    x ∈ sAdd T l ↔ x = T ∨ x ∈ l := by
  unfold sAdd
  by_cases h : T ∈ l
  · simp only [if_pos h]
    constructor
    · exact fun hx => Or.inr hx
    · rintro (rfl | hx) <;> [exact h; exact hx]
  · simp [if_neg h]

theorem nodup_sAdd {T : Nat} {l : List Nat} (h : l.Nodup) : (sAdd T l).Nodup := by
  unfold sAdd
  by_cases hT : T ∈ l
  · simpa [if_pos hT]
  · simpa [if_neg hT, h]

/-- A duplicate-free list of naturals below `n` has at most `n` elements. -/
theorem nodup_length_le {l : List Nat} {n : Nat} (hnd : l.Nodup)
    (hlt : ∀ x ∈ l, x < n) : l.length ≤ n := by
  have hsub : l.toFinset ⊆ Finset.range n := by
    intro x hx
    simp only [List.mem_toFinset] at hx
    exact Finset.mem_range.mpr (hlt x hx)
  have := Finset.card_le_card hsub
  rwa [List.toFinset_card_of_nodup hnd, Finset.card_range] at this

theorem pget_eq_nil_of_not_mem {T : Nat} {p : List (Nat × List Nat)}
    (h : T ∉ p.map Prod.fst) : pget T p = [] := by
  induction p with
  | nil => rfl
  | cons e rest ih =>
    obtain ⟨U, ts⟩ := e
    simp only [List.map_cons, List.mem_cons] at h
    push_neg at h
    simp only [pget]
    rw [if_neg fun hh => h.1 hh.symm]
    exact ih h.2

theorem pget_entry {T : Nat} {p : List (Nat × List Nat)} (h : pget T p ≠ []) :
    (T, pget T p) ∈ p := by
  induction p with
  | nil => exact absurd rfl h
  | cons e rest ih =>
    obtain ⟨U, ts⟩ := e
    by_cases hUT : U = T
    · subst hUT
      simp only [pget, if_pos rfl] at h ⊢
      exact List.mem_cons_self _ _
    · simp only [pget, if_neg hUT] at h ⊢
      exact List.mem_cons_of_mem _ (ih h)

theorem pget_pset_self (T i : Nat) (p : List (Nat × List Nat)) :
    pget T (pset T i p) = pget T p ++ [i] := by
  induction p with
  | nil => simp [pget, pset]
  | cons e rest ih =>
    obtain ⟨U, ts⟩ := e
    by_cases hUT : U = T
    · subst hUT; simp [pget, pset]
    · simp [pget, pset, hUT, ih]

theorem pget_pset_ne {T U : Nat} (hUT : U ≠ T) (i : Nat)
    (p : List (Nat × List Nat)) : pget U (pset T i p) = pget U p := by
  induction p with
  | nil =>
    have hne : ¬T = U := fun h => hUT h.symm
    simp [pget, pset, hne]
  | cons e rest ih =>
    obtain ⟨V, ts⟩ := e
    by_cases hVT : V = T
    · subst hVT
      have hne : ¬V = U := fun h => hUT h.symm
      simp [pget, pset, hne]
    · by_cases hVU : V = U
      · subst hVU
        simp [pget, pset, hVT]
      · simp [pget, pset, hVT, hVU, ih]

theorem map_fst_pset (T i : Nat) (p : List (Nat × List Nat)) :
    (pset T i p).map Prod.fst
      = if T ∈ p.map Prod.fst then p.map Prod.fst else p.map Prod.fst ++ [T] := by
  induction p with
  | nil => simp [pset]
  | cons e rest ih =>
    obtain ⟨U, ts⟩ := e
    by_cases hUT : U = T
    · subst hUT; simp [pset]
    · have hne : ¬T = U := fun h => hUT h.symm
      simp only [pset, if_neg hUT, List.map_cons, List.mem_cons]
      rw [ih]
      by_cases hm : T ∈ rest.map Prod.fst
      · simp [hm]
      · simp [hm, hne]

theorem nodup_keys_pset {T i : Nat} {p : List (Nat × List Nat)}
    (h : (p.map Prod.fst).Nodup) : ((pset T i p).map Prod.fst).Nodup := by
  rw [map_fst_pset]
  by_cases hm : T ∈ p.map Prod.fst
  · simpa [hm]
  · simp only [if_neg hm]
    simpa [List.nodup_append, hm] using h

theorem mem_pset {T i : Nat} {p : List (Nat × List Nat)}
    (hk : (p.map Prod.fst).Nodup) {e : Nat × List Nat} (he : e ∈ pset T i p) :
    (e ∈ p ∧ e.1 ≠ T) ∨ (e.1 = T ∧ e.2 = pget T p ++ [i]) := by
  induction p with
  | nil =>
    simp only [pset, List.mem_singleton] at he
    subst he
    exact Or.inr ⟨rfl, by simp [pget]⟩
  | cons f rest ih =>
    obtain ⟨U, ts⟩ := f
    simp only [List.map_cons, List.nodup_cons] at hk
    by_cases hUT : U = T
    · subst hUT
      have he' : e = (U, ts ++ [i]) ∨ e ∈ rest := by simpa [pset] using he
      rcases he' with h1 | h2
      · refine Or.inr ⟨by rw [h1], ?_⟩
        rw [h1]
        simp [pget]
      · refine Or.inl ⟨List.mem_cons_of_mem _ h2, fun hT => hk.1 ?_⟩
        rw [← hT]
        exact List.mem_map_of_mem Prod.fst h2
    · have he' : e = (U, ts) ∨ e ∈ pset T i rest := by simpa [pset, hUT] using he
      rcases he' with h1 | h2
      · exact Or.inl ⟨by rw [h1]; exact List.mem_cons_self _ _, by rw [h1]; exact hUT⟩
      · rcases ih hk.2 h2 with ⟨hmem, hne⟩ | ⟨hT, hval⟩
        · exact Or.inl ⟨List.mem_cons_of_mem _ hmem, hne⟩
        · refine Or.inr ⟨hT, ?_⟩
          rw [hval]
          simp [pget, hUT]

theorem pendCount_pset (T i : Nat) (p : List (Nat × List Nat)) :
    pendCount (pset T i p) = pendCount p + 1 := by
  induction p with
  | nil => simp [pset, pendCount]
  | cons e rest ih =>
    obtain ⟨U, ts⟩ := e
    by_cases hUT : U = T
    · subst hUT; simp [pset, pendCount]; omega
    · simp only [pset, if_neg hUT, pendCount, List.map_cons, List.sum_cons] at ih ⊢
      omega

theorem scanPromote_none {act : List Nat} {p : List (Nat × List Nat)}
    (h : scanPromote act p = none) : ∀ e ∈ p, e.1 ∈ act ∨ e.2 = [] := by
  induction p with
  | nil => simp
  | cons f rest ih =>
    obtain ⟨U, ts⟩ := f
    intro e he
    simp only [scanPromote] at h
    by_cases hg : U ∈ act ∨ ts = []
    · rw [if_pos hg] at h
      rcases List.mem_cons.mp he with h1 | h2
      · rw [h1]; exact hg
      · cases hsc : scanPromote act rest with
        | none => exact ih hsc e h2
        | some v =>
          obtain ⟨a, b, c⟩ := v
          rw [hsc] at h
          simp at h
    · rw [if_neg hg] at h
      push_neg at hg
      cases hts : ts with
      | nil => exact absurd hts hg.2
      | cons a b => rw [hts] at h; simp at h

/-- Full specification of one Block-1 promotion: the chosen target is
inactive, the promoted task is the head of that target's pending list, all
other lists are untouched, keys only shrink, surviving entries are old
entries or the shortened chosen one, and exactly one queued task leaves. -/
theorem scanPromote_some {act : List Nat} {p : List (Nat × List Nat)}
    {T h : Nat} {p' : List (Nat × List Nat)}
    (hk : (p.map Prod.fst).Nodup)
    (hs : scanPromote act p = some (T, h, p')) :
    T ∉ act
    ∧ pget T p = h :: pget T p'
    ∧ (∀ U, U ≠ T → pget U p' = pget U p)
    ∧ List.Sublist (p'.map Prod.fst) (p.map Prod.fst)
    ∧ (∀ e ∈ p', (e ∈ p ∧ e.1 ≠ T) ∨ (e.1 = T ∧ pget T p = h :: e.2 ∧ e.2 ≠ []))
    ∧ pendCount p = pendCount p' + 1 := by
  induction p generalizing p' with
  | nil => simp [scanPromote] at hs
  | cons f rest ih =>
    obtain ⟨V, ts⟩ := f
    simp only [List.map_cons, List.nodup_cons] at hk
    simp only [scanPromote] at hs
    by_cases hg : V ∈ act ∨ ts = []
    · rw [if_pos hg] at hs
      cases hsc : scanPromote act rest with
      | none => rw [hsc] at hs; simp at hs
      | some v =>
        obtain ⟨T', h', rest'⟩ := v
        rw [hsc] at hs
        simp only [Option.some.injEq, Prod.mk.injEq] at hs
        obtain ⟨rfl, rfl, rfl⟩ := hs
        obtain ⟨ha, hself, hother, hsub, hent, hcnt⟩ := ih hk.2 hsc
        have hTrest : T' ∈ rest.map Prod.fst := by
          by_contra hc
          rw [pget_eq_nil_of_not_mem hc] at hself
          exact List.cons_ne_nil _ _ hself.symm
        have hVT : ¬V = T' := fun hvt => hk.1 (hvt ▸ hTrest)
        refine ⟨ha, ?_, ?_, ?_, ?_, ?_⟩
        · simpa [pget, hVT] using hself
        · intro U hU
          by_cases hVU : V = U
          · subst hVU; simp [pget]
          · simpa [pget, hVU] using hother U hU
        · exact List.Sublist.cons₂ V hsub
        · intro e he
          rcases List.mem_cons.mp he with h1 | h2
          · rw [h1]
            exact Or.inl ⟨List.mem_cons_self _ _, hVT⟩
          · rcases hent e h2 with ⟨hmem, hne⟩ | ⟨hT, hval, hnn⟩
            · exact Or.inl ⟨List.mem_cons_of_mem _ hmem, hne⟩
            · refine Or.inr ⟨hT, ?_, hnn⟩
              simpa [pget, hVT] using hval
        · simp only [pendCount, List.map_cons, List.sum_cons] at hcnt ⊢
          omega
    · rw [if_neg hg] at hs
      push_neg at hg
      cases hts : ts with
      | nil => exact absurd hts hg.2
      | cons h0 tl =>
        rw [hts] at hs
        subst hts
        simp only [Option.some.injEq, Prod.mk.injEq] at hs
        obtain ⟨rfl, rfl, rfl⟩ := hs
        have hTk : V ∉ rest.map Prod.fst := hk.1
        refine ⟨hg.1, ?_, ?_, ?_, ?_, ?_⟩
        · by_cases htl : tl = []
          · simp [pget, htl, pget_eq_nil_of_not_mem hTk]
          · simp [pget, htl]
        · intro U hU
          have hTU : ¬V = U := fun hh => hU hh.symm
          by_cases htl : tl = [] <;> simp [pget, htl, hTU]
        · by_cases htl : tl = []
          · simp only [htl, if_pos]
            simp only [List.map_cons]
            exact List.sublist_cons_self _ _
          · simp [htl]
        · intro e he
          by_cases htl : tl = []
          · rw [if_pos htl] at he
            refine Or.inl ⟨List.mem_cons_of_mem _ he, fun hT => hTk ?_⟩
            rw [← hT]
            exact List.mem_map_of_mem Prod.fst he
          · rw [if_neg htl] at he
            rcases List.mem_cons.mp he with h1 | h2
            · rw [h1]
              exact Or.inr ⟨rfl, by simp [pget], htl⟩
            · refine Or.inl ⟨List.mem_cons_of_mem _ h2, fun hT => hTk ?_⟩
              rw [← hT]
              exact List.mem_map_of_mem Prod.fst h2
        · by_cases htl : tl = [] <;>
            · simp [htl, pendCount]
              omega

theorem sizeLt_false_iff {n limit : Nat} :
    sizeLt n limit = false ↔ limit ≠ 0 ∧ limit ≤ n := by
  simp [sizeLt]

theorem sizeLt_true_iff {n limit : Nat} :
    sizeLt n limit = true ↔ limit = 0 ∨ n < limit := by
  simp [sizeLt]

theorem pendCount_zero {p : List (Nat × List Nat)} (h : pendCount p = 0) :
    ∀ e ∈ p, e.2 = [] := by
  intro e he
  induction p with
  | nil => cases he
  | cons f rest ih =>
    simp only [pendCount, List.map_cons, List.sum_cons] at h
    rcases List.mem_cons.mp he with h1 | h2
    · rw [h1]
      exact List.eq_nil_of_length_eq_zero (by omega)
    · exact ih (by simp only [pendCount]; omega) h2

theorem promoteLoop_nil {cfg : Cfg} {s : Sched} (h : s.pending = []) :
    ∀ fuel, promoteLoop cfg fuel s = s := by
  intro fuel
  cases fuel with
  | zero => rfl
  | succ m => simp [promoteLoop, h]

theorem map_fst_settleRacers (t : Nat) (ok : Bool)
    (rs : List (Nat × List Nat × Option Bool)) :
    (settleRacers t ok rs).map (fun r => r.1) = rs.map fun r => r.1 := by
  induction rs with
  | nil => rfl
  | cons r rest ih =>
    simp only [settleRacers, List.map_cons] at ih ⊢
    by_cases hc : t ∈ r.2.1 ∧ r.2.2 = none
    · simp [if_pos hc, ih]
    · simp [if_neg hc, ih]

theorem mem_settleRacers {t : Nat} {ok : Bool}
    {rs : List (Nat × List Nat × Option Bool)} {r : Nat × List Nat × Option Bool}
    (hr : r ∈ settleRacers t ok rs) :
    (r ∈ rs ∧ (r.2.2 = none → t ∉ r.2.1)) ∨
      (∃ q ∈ rs, q.2.2 = none ∧ t ∈ q.2.1 ∧ r = (q.1, q.2.1, some ok)) := by
  induction rs with
  | nil => cases hr
  | cons q rest ih =>
    simp only [settleRacers, List.map_cons, List.mem_cons] at hr
    by_cases hc : t ∈ q.2.1 ∧ q.2.2 = none
    · rw [if_pos hc] at hr
      rcases hr with h1 | h2
      · exact Or.inr ⟨q, List.mem_cons_self _ _, hc.2, hc.1, h1⟩
      · rcases ih h2 with ⟨hm, hcond⟩ | ⟨q', hq', hrest⟩
        · exact Or.inl ⟨List.mem_cons_of_mem _ hm, hcond⟩
        · exact Or.inr ⟨q', List.mem_cons_of_mem _ hq', hrest⟩
    · rw [if_neg hc] at hr
      rcases hr with h1 | h2
      · refine Or.inl ⟨by rw [h1]; exact List.mem_cons_self _ _, fun hn ht => ?_⟩
        rw [h1] at hn ht
        exact hc ⟨ht, hn⟩
      · rcases ih h2 with ⟨hm, hcond⟩ | ⟨q', hq', hrest⟩
        · exact Or.inl ⟨List.mem_cons_of_mem _ hm, hcond⟩
        · exact Or.inr ⟨q', List.mem_cons_of_mem _ hq', hrest⟩

theorem findSettled_mem {i : Nat} {rs : List (Nat × List Nat × Option Bool)}
    {ok : Bool} (h : findSettled i rs = some ok) :
    ∃ snap, (i, snap, some ok) ∈ rs := by
  induction rs with
  | nil => simp [findSettled] at h
  | cons r rest ih =>
    simp only [findSettled] at h
    by_cases hc : r.1 = i ∧ r.2.2.isSome
    · rw [if_pos hc] at h
      refine ⟨r.2.1, ?_⟩
      have : r = (i, r.2.1, some ok) := by
        obtain ⟨a, b, c⟩ := r
        simp only at hc h ⊢
        cases c with
        | none => simp at hc
        | some v =>
          simp only [Option.some.injEq] at h
          exact by simp [hc.1, h]
      rw [← this]
      exact List.mem_cons_self _ _
    · rw [if_neg hc] at h
      obtain ⟨snap, hm⟩ := ih h
      exact ⟨snap, List.mem_cons_of_mem _ hm⟩

theorem mem_removeRacer {i : Nat} {rs : List (Nat × List Nat × Option Bool)}
    {r : Nat × List Nat × Option Bool} (h : r ∈ removeRacer i rs) :
    r ∈ rs ∧ r.1 ≠ i := by
  simp only [removeRacer, List.mem_filter, bne_iff_ne, ne_eq] at h
  exact ⟨h.1, h.2⟩

/-- Moving a snoc across an append, up to permutation. -/
theorem perm_snoc_mid (A B : List Nat) (i : Nat) :
    ((A ++ [i]) ++ B).Perm ((A ++ B) ++ [i]) := by
  refine List.perm_iff_count.mpr fun a => ?_
  simp only [List.count_append]
  omega

/-- Quiescence of Block 1: every pending entry's target is active, or there
is no capacity.  This holds at every suspension point (it is re-established
by running Block 1 to exhaustion) but is broken transiently when a
settlement frees a target, before the spawned `processNext` runs. -/
def Quiet (cfg : Cfg) (s : Sched) : Prop :=
  ∀ e ∈ s.pending, e.1 ∈ s.activeT ∨ sizeLt s.inflight.length cfg.limit = false

/-- The bulk of the inductive state invariant: everything except the
per-target arrival bookkeeping (`order`) and the termination bookkeeping
(`fin_inv`), which are stated separately because a Block-1 promotion
re-expresses them mid-step. -/
structure Core0 (cfg : Cfg) (s : Sched) : Prop where
  cursor_le : s.cursor ≤ cfg.tgts.length
  started_lt : ∀ i ∈ s.started, i < s.cursor
  started_nd : s.started.Nodup
  split_mem : ∀ i, i ∈ s.started ↔ (i ∈ s.completedL ∨ i ∈ s.inflight)
  disj_ci : ∀ i ∈ s.completedL, i ∉ s.inflight
  inflight_nd : s.inflight.Nodup
  completed_nd : s.completedL.Nodup
  targets_nd : (s.inflight.map (tgtOf cfg)).Nodup
  active_iff : ∀ T, T ∈ s.activeT ↔ T ∈ s.inflight.map (tgtOf cfg)
  active_nd : s.activeT.Nodup
  cap : cfg.limit ≠ 0 → s.inflight.length ≤ cfg.limit
  pkeys_nd : (s.pending.map Prod.fst).Nodup
  pne : ∀ e ∈ s.pending, e.2 ≠ []
  pkey : ∀ e ∈ s.pending, ∀ i ∈ e.2, tgtOf cfg i = e.1 ∧ i < s.cursor
  cbs : ∀ i j, i < j → tgtOf cfg i = tgtOf cfg j → j ∈ s.started →
          i ∈ s.completedL
  rsnap : ∀ r ∈ s.racers, r.2.2 = none → ∀ t ∈ r.2.1, t ∈ s.inflight
  rne : ∀ r ∈ s.racers, r.2.1 ≠ []
  inst_nd : (instL s).Nodup
  inst_lt : ∀ i ∈ instL s, i < s.nextInst
  ninst_eq : s.nextInst = s.completedL.length + 1

/-- The inductive state invariant, minus quiescence.  The location of
invocation 0 (`0 ∈ instL s`) is tracked separately in `SchedInv`, because it
is transiently absent while invocation 0 is being resumed. -/
structure Core (cfg : Cfg) (s : Sched) extends Core0 cfg s : Prop where
  order : ∀ T, s.started.filter (fun k => tgtOf cfg k == T) ++ pget T s.pending
            = arrivals cfg s.cursor T
  fin_inv : 0 ∈ s.finished →
              cfg.tgts.length ≤ s.cursor ∧ s.inflight = [] ∧ s.pending = []

/-- The full invariant, holding at every state reachable between
microtasks. -/
def SchedInv (cfg : Cfg) (s : Sched) : Prop :=
  Core cfg s ∧ Quiet cfg s ∧ 0 ∈ instL s

theorem arrivals_nd (cfg : Cfg) (c T : Nat) : (arrivals cfg c T).Nodup :=
  (arrivals_sorted cfg c T).imp fun hab => Nat.ne_of_lt hab

/-- Launching a task preserves the invariant core.  The `orderX` hypothesis
says the task is the next same-target arrival not yet started: the head of
its target's per-target arrival backlog. -/
theorem executeTask_core {cfg : Cfg} {s : Sched} {idx : Nat}
    (hc : Core0 cfg s)
    (orderX : ∀ T, s.started.filter (fun k => tgtOf cfg k == T)
        ++ (if tgtOf cfg idx = T then idx :: pget T s.pending
            else pget T s.pending)
        = arrivals cfg s.cursor T)
    (hidx_lt : idx < s.cursor)
    (hfree : tgtOf cfg idx ∉ s.activeT)
    (hcap : sizeLt s.inflight.length cfg.limit = true)
    (h0f : 0 ∉ s.finished) :
    Core cfg (executeTask cfg idx s) := by
  have hT0 := orderX (tgtOf cfg idx)
  rw [if_pos rfl] at hT0
  have hand : (arrivals cfg s.cursor (tgtOf cfg idx)).Nodup :=
    arrivals_nd cfg s.cursor (tgtOf cfg idx)
  have hasort := arrivals_sorted cfg s.cursor (tgtOf cfg idx)
  rw [← hT0] at hand hasort
  have hidx_not_filter :
      idx ∉ s.started.filter (fun k => tgtOf cfg k == (tgtOf cfg idx)) := by
    intro hmem
    rcases List.nodup_append.mp hand with ⟨_, _, hdisj⟩
    exact hdisj hmem (List.mem_cons_self _ _)
  have hidx_started : idx ∉ s.started := by
    intro hmem
    exact hidx_not_filter (List.mem_filter.mpr ⟨hmem, by simp⟩)
  have hidx_inflight : idx ∉ s.inflight := fun hm =>
    hidx_started ((hc.split_mem idx).mpr (Or.inr hm))
  have hidx_completed : idx ∉ s.completedL := fun hm =>
    hidx_started ((hc.split_mem idx).mpr (Or.inl hm))
  have htgt_not_map : tgtOf cfg idx ∉ s.inflight.map (tgtOf cfg) := fun hm =>
    hfree ((hc.active_iff _).mpr hm)
  refine ⟨⟨?_, ?_, ?_, ?_, ?_, ?_, ?_, ?_, ?_, ?_, ?_, ?_, ?_, ?_, ?_, ?_, ?_,
    ?_, ?_, ?_⟩, ?_, ?_⟩ <;> simp only [executeTask, instL]
  · exact hc.cursor_le
  · intro i hi
    rcases List.mem_append.mp hi with hi | hi
    · exact hc.started_lt i hi
    · rw [List.mem_singleton.mp hi]; exact hidx_lt
  · exact List.nodup_append.mpr ⟨hc.started_nd, List.nodup_singleton idx,
      by intro a ha hb; rw [List.mem_singleton.mp hb] at ha; exact hidx_started ha⟩
  · intro i
    constructor
    · intro hi
      rcases List.mem_append.mp hi with hi | hi
      · rcases (hc.split_mem i).mp hi with h | h
        · exact Or.inl h
        · exact Or.inr (List.mem_append_left _ h)
      · exact Or.inr (List.mem_append_right _ hi)
    · rintro (h | h)
      · exact List.mem_append_left _ ((hc.split_mem i).mpr (Or.inl h))
      · rcases List.mem_append.mp h with h | h
        · exact List.mem_append_left _ ((hc.split_mem i).mpr (Or.inr h))
        · exact List.mem_append_right _ h
  · intro i hi
    intro hmem
    rcases List.mem_append.mp hmem with h | h
    · exact hc.disj_ci i hi h
    · rw [List.mem_singleton.mp h] at hi
      exact hidx_completed hi
  · exact List.nodup_append.mpr ⟨hc.inflight_nd, List.nodup_singleton idx,
      by intro a ha hb; rw [List.mem_singleton.mp hb] at ha; exact hidx_inflight ha⟩
  · exact hc.completed_nd
  · rw [List.map_append]
    refine List.nodup_append.mpr ⟨hc.targets_nd, by simp, ?_⟩
    intro a ha hb
    simp only [List.map_cons, List.map_nil, List.mem_singleton] at hb
    rw [hb] at ha
    exact htgt_not_map ha
  · intro T
    rw [mem_sAdd, List.map_append]
    simp only [List.map_cons, List.map_nil, List.mem_append,
      List.mem_singleton]
    rw [hc.active_iff T]
    tauto
  · exact nodup_sAdd hc.active_nd
  · intro hlim
    rcases sizeLt_true_iff.mp hcap with h | h
    · exact absurd h hlim
    · simp only [executeTask, List.length_append, List.length_cons,
        List.length_nil]
      omega
  · exact hc.pkeys_nd
  · exact hc.pne
  · intro e he i hi
    exact ⟨(hc.pkey e he i hi).1, (hc.pkey e he i hi).2⟩
  · intro i j hij htij hj
    rcases List.mem_append.mp hj with hj | hj
    · exact hc.cbs i j hij htij hj
    · rw [List.mem_singleton.mp hj] at hij htij
      have hiarr : i ∈ s.started.filter (fun k => tgtOf cfg k == (tgtOf cfg idx))
          ++ idx :: pget (tgtOf cfg idx) s.pending := by
        rw [hT0, mem_arrivals]
        exact ⟨Nat.lt_trans hij hidx_lt, htij⟩
      rcases List.mem_append.mp hiarr with hif | hip
      · have hist : i ∈ s.started := (List.mem_filter.mp hif).1
        rcases (hc.split_mem i).mp hist with h | h
        · exact h
        · exfalso
          apply hfree
          rw [hc.active_iff]
          rw [← htij]
          exact List.mem_map_of_mem (tgtOf cfg) h
      · rcases List.mem_cons.mp hip with h | h
        · omega
        · exfalso
          rcases List.pairwise_append.mp hasort with ⟨_, hcons, _⟩
          have := (List.pairwise_cons.mp hcons).1 i h
          omega
  · intro r hr hnone t ht
    exact List.mem_append_left _ (hc.rsnap r hr hnone t ht)
  · exact hc.rne
  · exact hc.inst_nd
  · exact hc.inst_lt
  · exact hc.ninst_eq
  · intro T
    by_cases hTT : tgtOf cfg idx = T
    · rw [← hTT]
      rw [List.filter_append]
      have : [idx].filter (fun k => tgtOf cfg k == (tgtOf cfg idx)) = [idx] := by
        simp
      rw [this, List.append_assoc]
      rw [← hT0]
      simp
    · have hTne := orderX T
      rw [if_neg hTT] at hTne
      rw [List.filter_append]
      have : [idx].filter (fun k => tgtOf cfg k == T) = [] := by
        simp [hTT]
      rw [this, List.append_nil]
      exact hTne
  · intro h0
    exact absurd h0 h0f

theorem promote_step_core {cfg : Cfg} {s : Sched} {T h : Nat}
    {p' : List (Nat × List Nat)}
    (hc : Core cfg s)
    (hs : scanPromote s.activeT s.pending = some (T, h, p'))
    (hcap : sizeLt s.inflight.length cfg.limit = true) :
    Core cfg (executeTask cfg h { s with pending := p' }) := by
  obtain ⟨hact, hself, hother, hsub, hent, hcnt⟩ := scanPromote_some hc.pkeys_nd hs
  have hpgQ : pget T s.pending ≠ [] := by
    rw [hself]; exact List.cons_ne_nil _ _
  have hentryT := pget_entry hpgQ
  have hhk := hc.pkey _ hentryT h (by rw [hself]; exact List.mem_cons_self _ _)
  have hpne : s.pending ≠ [] := by
    intro hnil
    rw [hnil] at hs
    simp [scanPromote] at hs
  have h0f : 0 ∉ s.finished := by
    intro h0
    exact hpne (hc.fin_inv h0).2.2
  have hc0 : Core0 cfg { s with pending := p' } := by
    refine ⟨hc.cursor_le, hc.started_lt, hc.started_nd, hc.split_mem, hc.disj_ci,
      hc.inflight_nd, hc.completed_nd, hc.targets_nd, hc.active_iff,
      hc.active_nd, hc.cap, ?_, ?_, ?_, hc.cbs, hc.rsnap, hc.rne, hc.inst_nd,
      hc.inst_lt, hc.ninst_eq⟩
    · exact hc.pkeys_nd.sublist hsub
    · intro e he
      rcases hent e he with ⟨hm, _⟩ | ⟨_, _, hnn⟩
      · exact hc.pne e hm
      · exact hnn
    · intro e he i hi
      rcases hent e he with ⟨hm, _⟩ | ⟨hT, hval, _⟩
      · exact hc.pkey e hm i hi
      · have hip : i ∈ pget T s.pending := by
          rw [hval]; exact List.mem_cons_of_mem _ hi
        have := hc.pkey _ hentryT i hip
        exact ⟨by rw [this.1, hT], this.2⟩
  have horderX : ∀ U, ({ s with pending := p' } : Sched).started.filter
        (fun k => tgtOf cfg k == U)
      ++ (if tgtOf cfg h = U then h :: pget U ({ s with pending := p' } : Sched).pending
          else pget U ({ s with pending := p' } : Sched).pending)
      = arrivals cfg ({ s with pending := p' } : Sched).cursor U := by
    intro U
    simp only
    by_cases hTU : tgtOf cfg h = U
    · rw [if_pos hTU]
      have hUT : U = T := by rw [← hTU, hhk.1]
      subst hUT
      rw [← hself]
      exact hc.order U
    · rw [if_neg hTU]
      rw [hother U (fun hUT => hTU (by rw [hhk.1, hUT]))]
      exact hc.order U
  exact executeTask_core hc0 horderX hhk.2
    (by simpa [hhk.1] using hact) hcap h0f

theorem promoteLoop_core (cfg : Cfg) :
    ∀ (fuel : Nat) {s : Sched}, Core cfg s → Core cfg (promoteLoop cfg fuel s) := by
  intro fuel
  induction fuel with
  | zero => intro s hc; exact hc
  | succ m ih =>
    intro s hc
    simp only [promoteLoop]
    split
    · rename_i hcond
      cases hsc : scanPromote s.activeT s.pending with
      | none => exact hc
      | some v =>
        obtain ⟨T, h, p'⟩ := v
        exact ih (promote_step_core hc hsc (Bool.and_eq_true _ _ |>.mp hcond).1)
    · exact hc

theorem promoteLoop_quiet (cfg : Cfg) :
    ∀ (fuel : Nat) {s : Sched}, Core cfg s → pendCount s.pending ≤ fuel →
      Quiet cfg (promoteLoop cfg fuel s) := by
  intro fuel
  induction fuel with
  | zero =>
    intro s hc hle
    intro e he
    exact absurd (pendCount_zero (Nat.le_zero.mp hle) e he) (hc.pne e he)
  | succ m ih =>
    intro s hc hle
    simp only [promoteLoop]
    split
    · rename_i hcond
      cases hsc : scanPromote s.activeT s.pending with
      | none =>
        intro e he
        rcases scanPromote_none hsc e he with h | h
        · exact Or.inl h
        · exact absurd h (hc.pne e he)
      | some v =>
        obtain ⟨T, h, p'⟩ := v
        have hcnt := (scanPromote_some hc.pkeys_nd hsc).2.2.2.2.2
        refine ih (promote_step_core hc hsc (Bool.and_eq_true _ _ |>.mp hcond).1) ?_
        simp only [executeTask]
        omega
    · rename_i hcond
      simp only [Bool.and_eq_true, Bool.not_eq_true', List.isEmpty_eq_false,
        not_and, Bool.not_eq_true] at hcond
      intro e he
      by_cases hsz : sizeLt s.inflight.length cfg.limit = true
      · have hnil : s.pending = [] := not_not.mp (hcond hsz)
        exact absurd he (by rw [hnil]; exact List.not_mem_nil e)
      · exact Or.inr (Bool.not_eq_true _ |>.mp hsz)

theorem promoteLoop_frame (cfg : Cfg) :
    ∀ (fuel : Nat) (s : Sched),
      (promoteLoop cfg fuel s).cursor = s.cursor ∧
      (promoteLoop cfg fuel s).pullQ = s.pullQ ∧
      (promoteLoop cfg fuel s).racers = s.racers ∧
      (promoteLoop cfg fuel s).nextInst = s.nextInst ∧
      (promoteLoop cfg fuel s).finished = s.finished ∧
      (promoteLoop cfg fuel s).crashed = s.crashed ∧
      (promoteLoop cfg fuel s).completedL = s.completedL := by
  intro fuel
  induction fuel with
  | zero => intro s; exact ⟨rfl, rfl, rfl, rfl, rfl, rfl, rfl⟩
  | succ m ih =>
    intro s
    simp only [promoteLoop]
    split
    · cases hsc : scanPromote s.activeT s.pending with
      | none => exact ⟨rfl, rfl, rfl, rfl, rfl, rfl, rfl⟩
      | some v =>
        obtain ⟨T, h, p'⟩ := v
        exact ih _
    · exact ⟨rfl, rfl, rfl, rfl, rfl, rfl, rfl⟩

theorem instL_frame (cfg : Cfg) (fuel : Nat) (s : Sched) :
    instL (promoteLoop cfg fuel s) = instL s := by
  obtain ⟨_, h1, h2, _, h3, h4, _⟩ := promoteLoop_frame cfg fuel s
  simp [instL, h1, h2, h3, h4]

theorem instL_place_pull (s : Sched) (i : Nat) :
    (instL { s with pullQ := s.pullQ ++ [i] }).Perm (instL s ++ [i]) := by
  refine List.perm_iff_count.mpr fun a => ?_
  simp only [instL, List.count_append]
  omega

theorem instL_place_race (s : Sched) (i : Nat) (snap : List Nat)
    (tok : Option Bool) :
    (instL { s with racers := s.racers ++ [(i, snap, tok)] }).Perm
      (instL s ++ [i]) := by
  refine List.perm_iff_count.mpr fun a => ?_
  simp only [instL, List.map_append, List.count_append]
  simp
  omega

theorem instL_place_fin (s : Sched) (i : Nat) :
    (instL { s with finished := s.finished ++ [i] }).Perm (instL s ++ [i]) := by
  refine List.perm_iff_count.mpr fun a => ?_
  simp only [instL, List.count_append]
  omega

theorem instL_place_crash (s : Sched) (i : Nat) :
    (instL { s with crashed := s.crashed ++ [i] }).Perm (instL s ++ [i]) := by
  refine List.perm_iff_count.mpr fun a => ?_
  simp only [instL, List.count_append]
  omega

/-- Bookkeeping of the instance fields when a suspended or terminated
invocation `i` is recorded in one of the four instance lists. -/
theorem inst_fields_place {s' s1 : Sched} {i : Nat}
    (hperm : (instL s').Perm (instL s1 ++ [i]))
    (hnd : (instL s1).Nodup) (hnotin : i ∉ instL s1)
    (hlt0 : ∀ j ∈ instL s1, j < s1.nextInst) (hlt : i < s1.nextInst)
    (hni : s'.nextInst = s1.nextInst)
    (hzero : 0 ∈ instL s1 ∨ i = 0) :
    (instL s').Nodup ∧ (∀ j ∈ instL s', j < s'.nextInst) ∧ 0 ∈ instL s' := by
  have hnd' : (instL s1 ++ [i]).Nodup := by
    rw [List.nodup_append]
    refine ⟨hnd, List.nodup_singleton i, ?_⟩
    intro a ha hb
    rw [List.mem_singleton.mp hb] at ha
    exact hnotin ha
  refine ⟨hperm.nodup_iff.mpr hnd', ?_, ?_⟩
  · intro j hj
    rw [hni]
    rcases List.mem_append.mp (hperm.mem_iff.mp hj) with h | h
    · exact hlt0 j h
    · rw [List.mem_singleton.mp h]
      exact hlt
  · refine hperm.mem_iff.mpr (List.mem_append.mpr ?_)
    rcases hzero with h | h
    · exact Or.inl h
    · refine Or.inr ?_
      rw [h]
      exact List.mem_singleton.mpr rfl

/-- Recording invocation `i` as suspended at `await iterator.next()`. -/
theorem place_pull_inv {cfg : Cfg} {s1 : Sched} {i : Nat}
    (hc1 : Core cfg s1) (hq1 : Quiet cfg s1)
    (hnotin : i ∉ instL s1) (hlt : i < s1.nextInst)
    (hzero : 0 ∈ instL s1 ∨ i = 0) :
    SchedInv cfg { s1 with pullQ := s1.pullQ ++ [i] } := by
  obtain ⟨hnd, hltA, hz⟩ := inst_fields_place (instL_place_pull s1 i)
    hc1.inst_nd hnotin hc1.inst_lt hlt rfl hzero
  exact ⟨⟨⟨hc1.cursor_le, hc1.started_lt, hc1.started_nd, hc1.split_mem,
    hc1.disj_ci, hc1.inflight_nd, hc1.completed_nd, hc1.targets_nd,
    hc1.active_iff, hc1.active_nd, hc1.cap, hc1.pkeys_nd, hc1.pne, hc1.pkey,
    hc1.cbs, hc1.rsnap, hc1.rne, hnd, hltA, hc1.ninst_eq⟩,
    hc1.order, hc1.fin_inv⟩, hq1, hz⟩

/-- Recording invocation `i` as suspended at `await Promise.race` over the
current `activePromises`. -/
theorem place_race_inv {cfg : Cfg} (s1 : Sched) {i : Nat}
    (hc1 : Core cfg s1) (hq1 : Quiet cfg s1)
    (hnotin : i ∉ instL s1) (hlt : i < s1.nextInst)
    (hzero : 0 ∈ instL s1 ∨ i = 0)
    (hne : s1.inflight ≠ []) :
    SchedInv cfg { s1 with racers := s1.racers ++ [(i, s1.inflight, none)] } := by
  obtain ⟨hnd, hltA, hz⟩ := inst_fields_place (instL_place_race s1 i s1.inflight none)
    hc1.inst_nd hnotin hc1.inst_lt hlt rfl hzero
  refine ⟨⟨⟨hc1.cursor_le, hc1.started_lt, hc1.started_nd, hc1.split_mem,
    hc1.disj_ci, hc1.inflight_nd, hc1.completed_nd, hc1.targets_nd,
    hc1.active_iff, hc1.active_nd, hc1.cap, hc1.pkeys_nd, hc1.pne, hc1.pkey,
    hc1.cbs, ?_, ?_, hnd, hltA, hc1.ninst_eq⟩,
    hc1.order, hc1.fin_inv⟩, hq1, hz⟩
  · intro r hr hnone t ht
    rcases List.mem_append.mp hr with h | h
    · exact hc1.rsnap r h hnone t ht
    · rw [List.mem_singleton.mp h] at ht
      exact ht
  · intro r hr
    rcases List.mem_append.mp hr with h | h
    · exact hc1.rne r h
    · rw [List.mem_singleton.mp h]
      exact hne

/-- One `processNext` iteration from the loop top preserves the invariant
and leaves the scheduler quiescent. -/
theorem processNextTop_inv {cfg : Cfg} {s : Sched} {i : Nat}
    (hc : Core cfg s)
    (hnotin : i ∉ instL s)
    (hlt : i < s.nextInst)
    (hzero : 0 ∈ instL s ∨ i = 0) :
    SchedInv cfg (processNextTop cfg i s) := by
  have hc1 := promoteLoop_core cfg (pendCount s.pending) hc
  have hq1 := promoteLoop_quiet cfg (pendCount s.pending) hc le_rfl
  have hfr := promoteLoop_frame cfg (pendCount s.pending) s
  have hIL := instL_frame cfg (pendCount s.pending) s
  simp only [processNextTop]
  split
  · exact place_pull_inv hc1 hq1 (by rw [hIL]; exact hnotin)
      (by rw [hfr.2.2.2.1]; exact hlt) (by rw [hIL]; exact hzero)
  · rename_i hcond
    simp only [Bool.or_eq_true, not_or, Bool.not_eq_true] at hcond
    have hsz : sizeLt (promoteLoop cfg (pendCount s.pending) s).inflight.length
        cfg.limit = false := hcond.1
    have hne : (promoteLoop cfg (pendCount s.pending) s).inflight ≠ [] := by
      intro hnil
      rcases sizeLt_false_iff.mp hsz with ⟨hlim, hle⟩
      rw [hnil] at hle
      simp at hle
      omega
    exact place_race_inv _ hc1 hq1 (by rw [hIL]; exact hnotin)
      (by rw [hfr.2.2.2.1]; exact hlt) (by rw [hIL]; exact hzero) hne

/-- Recording invocation `i` as dead of a rejected race. -/
theorem place_crash_inv {cfg : Cfg} {s1 : Sched} {i : Nat}
    (hc1 : Core cfg s1) (hq1 : Quiet cfg s1)
    (hnotin : i ∉ instL s1) (hlt : i < s1.nextInst)
    (hzero : 0 ∈ instL s1 ∨ i = 0) :
    SchedInv cfg { s1 with crashed := s1.crashed ++ [i] } := by
  obtain ⟨hnd, hltA, hz⟩ := inst_fields_place (instL_place_crash s1 i)
    hc1.inst_nd hnotin hc1.inst_lt hlt rfl hzero
  exact ⟨⟨⟨hc1.cursor_le, hc1.started_lt, hc1.started_nd, hc1.split_mem,
    hc1.disj_ci, hc1.inflight_nd, hc1.completed_nd, hc1.targets_nd,
    hc1.active_iff, hc1.active_nd, hc1.cap, hc1.pkeys_nd, hc1.pne, hc1.pkey,
    hc1.cbs, hc1.rsnap, hc1.rne, hnd, hltA, hc1.ninst_eq⟩,
    hc1.order, hc1.fin_inv⟩, hq1, hz⟩

theorem map_fst_removeRacer_sublist (i : Nat)
    (rs : List (Nat × List Nat × Option Bool)) :
    List.Sublist ((removeRacer i rs).map fun r => r.1) (rs.map fun r => r.1) :=
  (List.filter_sublist rs).map _

theorem not_mem_map_fst_removeRacer (i : Nat)
    (rs : List (Nat × List Nat × Option Bool)) :
    i ∉ (removeRacer i rs).map fun r => r.1 := by
  intro hm
  obtain ⟨r, hr, hfst⟩ := List.mem_map.mp hm
  have := (List.mem_filter.mp hr).2
  rw [hfst] at this
  simp at this

theorem mem_map_fst_removeRacer {j i : Nat}
    {rs : List (Nat × List Nat × Option Bool)}
    (hj : j ∈ rs.map fun r => r.1) (hne : j ≠ i) :
    j ∈ (removeRacer i rs).map fun r => r.1 := by
  obtain ⟨r, hr, hfst⟩ := List.mem_map.mp hj
  refine List.mem_map.mpr ⟨r, List.mem_filter.mpr ⟨hr, ?_⟩, hfst⟩
  rw [bne_iff_ne, ne_eq, hfst]
  exact hne

/-- A `wake` event preserves the invariant. -/
theorem stepWake_inv {cfg : Cfg} {s : Sched} {i : Nat}
    (h : SchedInv cfg s) : SchedInv cfg (stepWake cfg i s) := by
  obtain ⟨hc, hq, hz⟩ := h
  simp only [stepWake]
  cases hfs : findSettled i s.racers with
  | none => exact ⟨hc, hq, hz⟩
  | some ok =>
    obtain ⟨snap, hmem⟩ := findSettled_mem hfs
    have hi_map : i ∈ s.racers.map fun r => r.1 :=
      List.mem_map.mpr ⟨(i, snap, some ok), hmem, rfl⟩
    have hi_inst : i ∈ instL s := by
      simp only [instL, List.mem_append]
      exact Or.inl (Or.inl (Or.inr hi_map))
    have hlt_i : i < s.nextInst := hc.inst_lt i hi_inst
    have hsubL : List.Sublist (instL { s with racers := removeRacer i s.racers })
        (instL s) := by
      simp only [instL]
      exact List.Sublist.append (List.Sublist.append
        (List.Sublist.append (List.Sublist.refl _)
          (map_fst_removeRacer_sublist i s.racers))
        (List.Sublist.refl _)) (List.Sublist.refl _)
    have hc1 : Core cfg { s with racers := removeRacer i s.racers } := by
      refine ⟨⟨hc.cursor_le, hc.started_lt, hc.started_nd, hc.split_mem,
        hc.disj_ci, hc.inflight_nd, hc.completed_nd, hc.targets_nd,
        hc.active_iff, hc.active_nd, hc.cap, hc.pkeys_nd, hc.pne, hc.pkey,
        hc.cbs, ?_, ?_, hc.inst_nd.sublist hsubL, ?_, hc.ninst_eq⟩,
        hc.order, hc.fin_inv⟩
      · intro r hr
        exact hc.rsnap r (mem_removeRacer hr).1
      · intro r hr
        exact hc.rne r (mem_removeRacer hr).1
      · intro j hj
        exact hc.inst_lt j (hsubL.mem hj)
    have hnd := hc.inst_nd
    simp only [instL] at hnd
    obtain ⟨hndPMF, hndC, hdisjC⟩ := List.nodup_append.mp hnd
    obtain ⟨hndPM, hndF, hdisjF⟩ := List.nodup_append.mp hndPMF
    obtain ⟨hndP, hndM, hdisjPM⟩ := List.nodup_append.mp hndPM
    have hnotin : i ∉ instL { s with racers := removeRacer i s.racers } := by
      simp only [instL, List.mem_append]
      rintro (((hP | hM) | hF) | hC)
      · exact hdisjPM hP hi_map
      · exact not_mem_map_fst_removeRacer i s.racers hM
      · exact hdisjF (List.mem_append_right _ hi_map) hF
      · exact hdisjC (List.mem_append_left _ (List.mem_append_right _ hi_map)) hC
    have hzero : 0 ∈ instL { s with racers := removeRacer i s.racers } ∨ i = 0 := by
      by_cases h0i : i = 0
      · exact Or.inr h0i
      · left
        simp only [instL, List.mem_append] at hz ⊢
        rcases hz with ((hP | hM) | hF) | hC
        · exact Or.inl (Or.inl (Or.inl hP))
        · exact Or.inl (Or.inl (Or.inr (mem_map_fst_removeRacer hM
            (fun hji => h0i hji.symm))))
        · exact Or.inl (Or.inr hF)
        · exact Or.inr hC
    cases ok with
    | true => exact processNextTop_inv hc1 hnotin hlt_i hzero
    | false => exact place_crash_inv hc1 hq hnotin hlt_i hzero

/-- A task settlement preserves the invariant: the `finally` continuation
frees the target and promise and re-runs `processNext`, identically for a
fulfilled and a rejected executor promise. -/
theorem stepComplete_inv {cfg : Cfg} {s : Sched} {t : Nat} {ok : Bool}
    (h : SchedInv cfg s) : SchedInv cfg (stepComplete cfg t ok s) := by
  obtain ⟨hc, hq, hz⟩ := h
  simp only [stepComplete]
  split
  · rename_i hin
    have htnc : t ∉ s.completedL := fun hm => hc.disj_ci t hm hin
    have hts : t ∈ s.started := (hc.split_mem t).mpr (Or.inr hin)
    have hinj := List.inj_on_of_nodup_map hc.targets_nd
    set s2 : Sched := { s with activeT := s.activeT.erase (tgtOf cfg t), inflight := s.inflight.erase t, completedL := s.completedL ++ [t], racers := settleRacers t ok s.racers, nextInst := s.nextInst + 1 } with hs2
    have hILeq : instL s2 = instL s := by
      simp [hs2, instL, map_fst_settleRacers]
    have hc2 : Core cfg s2 := by
      refine ⟨⟨hc.cursor_le, hc.started_lt, hc.started_nd, ?_, ?_, 
        hc.inflight_nd.erase t, ?_, ?_, ?_, hc.active_nd.erase _, ?_,
        hc.pkeys_nd, hc.pne, hc.pkey, ?_, ?_, ?_, ?_, ?_, ?_⟩, hc.order, ?_⟩
      · intro j
        constructor
        · intro hj
          rcases (hc.split_mem j).mp hj with hcmp | hinf
          · exact Or.inl (List.mem_append_left _ hcmp)
          · by_cases hjt : j = t
            · exact Or.inl (List.mem_append_right _ (by rw [hjt]; exact List.mem_singleton.mpr rfl))
            · exact Or.inr (hc.inflight_nd.mem_erase_iff.mpr ⟨hjt, hinf⟩)
        · rintro (hj | hj)
          · rcases List.mem_append.mp hj with hj | hj
            · exact (hc.split_mem j).mpr (Or.inl hj)
            · rw [List.mem_singleton.mp hj]
              exact hts
          · exact (hc.split_mem j).mpr (Or.inr (List.mem_of_mem_erase hj))
      · intro j hj hmem
        rcases List.mem_append.mp hj with hj | hj
        · exact hc.disj_ci j hj (List.mem_of_mem_erase hmem)
        · rw [List.mem_singleton.mp hj] at hmem
          exact hc.inflight_nd.not_mem_erase hmem
      · refine List.nodup_append.mpr ⟨hc.completed_nd, List.nodup_singleton t, ?_⟩
        intro a ha hb
        rw [List.mem_singleton.mp hb] at ha
        exact htnc ha
      · exact hc.targets_nd.sublist ((List.erase_sublist t s.inflight).map _)
      · intro T
        constructor
        · intro hT
          obtain ⟨hTne, hTmem⟩ := hc.active_nd.mem_erase_iff.mp hT
          obtain ⟨x, hx, hxT⟩ := List.mem_map.mp ((hc.active_iff T).mp hTmem)
          have hxt : x ≠ t := fun hxt => hTne (by rw [← hxT, hxt])
          exact List.mem_map.mpr ⟨x, hc.inflight_nd.mem_erase_iff.mpr ⟨hxt, hx⟩, hxT⟩
        · intro hT
          obtain ⟨x, hx, hxT⟩ := List.mem_map.mp hT
          obtain ⟨hxt, hxm⟩ := hc.inflight_nd.mem_erase_iff.mp hx
          refine hc.active_nd.mem_erase_iff.mpr ⟨?_, (hc.active_iff T).mpr
            (List.mem_map.mpr ⟨x, hxm, hxT⟩)⟩
          intro hTt
          exact hxt (hinj hxm hin (by rw [hxT, hTt]))
      · intro hlim
        simp only [hs2]
        have h1 := (List.erase_sublist t s.inflight).length_le
        have h2 := hc.cap hlim
        omega
      · intro i j hij htij hj
        exact List.mem_append_left _ (hc.cbs i j hij htij hj)
      · intro r hr hnone x hx
        rcases mem_settleRacers hr with ⟨hmm, hcond⟩ | ⟨q, hq', hqn, hqt, hreq⟩
        · have hxi := hc.rsnap r hmm hnone x hx
          refine hc.inflight_nd.mem_erase_iff.mpr ⟨?_, hxi⟩
          intro hxt
          rw [hxt] at hx
          exact hcond hnone hx
        · rw [hreq] at hnone
          simp at hnone
      · intro r hr
        rcases mem_settleRacers hr with ⟨hm, _⟩ | ⟨q, hq', _, _, hreq⟩
        · exact hc.rne r hm
        · rw [hreq]
          exact hc.rne q hq'
      · rw [hILeq]
        exact hc.inst_nd
      · rw [hILeq]
        intro j hj
        exact Nat.lt_succ_of_lt (hc.inst_lt j hj)
      · simp only [List.length_append, List.length_cons, List.length_nil]
        rw [hc.ninst_eq]
      · intro h0
        exact absurd hin (by rw [(hc.fin_inv h0).2.1]; exact List.not_mem_nil t)
    refine processNextTop_inv hc2 ?_ ?_ ?_
    · rw [hILeq]
      intro hmem
      exact Nat.lt_irrefl _ (hc.inst_lt _ hmem)
    · exact Nat.lt_succ_self _
    · rw [hILeq]
      exact Or.inl hz
  · exact ⟨hc, hq, hz⟩

/-- A source delivery preserves the invariant, whether the resumed
invocation launches the task, queues it behind a busy target, returns, or
falls through to the wait step. -/
theorem stepDeliver_inv {cfg : Cfg} {s : Sched}
    (h : SchedInv cfg s) : SchedInv cfg (stepDeliver cfg s) := by
  obtain ⟨hc, hq, hz⟩ := h
  cases hpq : s.pullQ with
  | nil =>
    have hred : stepDeliver cfg s = s := by simp [stepDeliver, hpq]
    rw [hred]
    exact ⟨hc, hq, hz⟩
  | cons i rest =>
    have hred : stepDeliver cfg s
        = if s.cursor < cfg.tgts.length then
            processNextItem cfg i s.cursor
              { s with pullQ := rest, cursor := s.cursor + 1 }
          else processNextDone cfg i { s with pullQ := rest } := by
      simp only [stepDeliver, hpq]
    rw [hred]
    have hILc : instL s = i :: instL { s with pullQ := rest } := by
      simp [instL, hpq]
    have hndi : (instL { s with pullQ := rest }).Nodup ∧
        i ∉ instL { s with pullQ := rest } := by
      have hx := hc.inst_nd
      rw [hILc] at hx
      exact ⟨(List.nodup_cons.mp hx).2, (List.nodup_cons.mp hx).1⟩
    have hlt_i : i < s.nextInst :=
      hc.inst_lt i (by rw [hILc]; exact List.mem_cons_self _ _)
    have hlt_all : ∀ j ∈ instL { s with pullQ := rest }, j < s.nextInst :=
      fun j hj => hc.inst_lt j (by rw [hILc]; exact List.mem_cons_of_mem _ hj)
    have hzero' : 0 ∈ instL { s with pullQ := rest } ∨ i = 0 := by
      rw [hILc] at hz
      rcases List.mem_cons.mp hz with h0 | h0
      · exact Or.inr h0.symm
      · exact Or.inl h0
    by_cases hcur : s.cursor < cfg.tgts.length
    · rw [if_pos hcur]
      have h0f : 0 ∉ s.finished := by
        intro h0
        have := (hc.fin_inv h0).1
        omega
      simp only [processNextItem]
      by_cases hguard : tgtOf cfg s.cursor ∉ s.activeT ∧
          sizeLt s.inflight.length cfg.limit = true
      · rw [if_pos hguard]
        refine processNextTop_inv (executeTask_core ?_ ?_ (Nat.lt_succ_self _)
          hguard.1 hguard.2 h0f) hndi.2 hlt_i hzero'
        · exact ⟨Nat.succ_le_of_lt hcur,
            fun j hj => Nat.lt_succ_of_lt (hc.started_lt j hj),
            hc.started_nd, hc.split_mem, hc.disj_ci, hc.inflight_nd,
            hc.completed_nd, hc.targets_nd, hc.active_iff, hc.active_nd,
            hc.cap, hc.pkeys_nd, hc.pne,
            fun e he j hj => ⟨(hc.pkey e he j hj).1,
              Nat.lt_succ_of_lt (hc.pkey e he j hj).2⟩,
            hc.cbs, hc.rsnap, hc.rne, hndi.1, hlt_all, hc.ninst_eq⟩
        · intro T
          have hpg0 : pget (tgtOf cfg s.cursor) s.pending = [] := by
            by_contra hne
            rcases hq _ (pget_entry hne) with hact | hsz
            · exact hguard.1 hact
            · rw [hguard.2] at hsz
              cases hsz
          by_cases hTT : tgtOf cfg s.cursor = T
          · rw [if_pos hTT]
            rw [← hTT]
            rw [hpg0]
            have hord := hc.order (tgtOf cfg s.cursor)
            rw [hpg0, List.append_nil] at hord
            rw [arrivals_succ, hord]
            simp
          · rw [if_neg hTT]
            rw [arrivals_succ]
            rw [if_neg hTT]
            rw [List.append_nil]
            exact hc.order T
      · rw [if_neg hguard]
        refine processNextTop_inv ?_ hndi.2 hlt_i hzero'
        refine ⟨⟨Nat.succ_le_of_lt hcur,
          fun j hj => Nat.lt_succ_of_lt (hc.started_lt j hj),
          hc.started_nd, hc.split_mem, hc.disj_ci, hc.inflight_nd,
          hc.completed_nd, hc.targets_nd, hc.active_iff, hc.active_nd,
          hc.cap, nodup_keys_pset hc.pkeys_nd, ?_, ?_,
          hc.cbs, hc.rsnap, hc.rne, hndi.1, hlt_all, hc.ninst_eq⟩, ?_, ?_⟩
        · intro e he
          rcases mem_pset hc.pkeys_nd he with ⟨hm, _⟩ | ⟨_, hval⟩
          · exact hc.pne e hm
          · rw [hval]
            simp
        · intro e he j hj
          rcases mem_pset hc.pkeys_nd he with ⟨hm, _⟩ | ⟨hT, hval⟩
          · exact ⟨(hc.pkey e hm j hj).1, Nat.lt_succ_of_lt (hc.pkey e hm j hj).2⟩
          · rw [hval] at hj
            rcases List.mem_append.mp hj with hj | hj
            · have hpe : pget (tgtOf cfg s.cursor) s.pending ≠ [] := by
                intro hnil
                rw [hnil] at hj
                cases hj
              have := hc.pkey _ (pget_entry hpe) j hj
              exact ⟨by rw [this.1, hT], Nat.lt_succ_of_lt this.2⟩
            · rw [List.mem_singleton.mp hj]
              exact ⟨by rw [hT], Nat.lt_succ_self _⟩
        · intro T
          by_cases hTT : tgtOf cfg s.cursor = T
          · rw [← hTT]
            rw [pget_pset_self]
            rw [← List.append_assoc]
            rw [hc.order (tgtOf cfg s.cursor)]
            rw [arrivals_succ]
            simp
          · rw [pget_pset_ne (fun hUT => hTT hUT.symm)]
            rw [arrivals_succ, if_neg hTT, List.append_nil]
            exact hc.order T
        · intro h0
          exact absurd h0 h0f
    · rw [if_neg hcur]
      have hnle : cfg.tgts.length ≤ s.cursor := Nat.le_of_not_lt hcur
      simp only [processNextDone]
      by_cases hterm : (s.inflight.isEmpty && s.pending.isEmpty) = true
      · rw [if_pos hterm]
        simp only [Bool.and_eq_true, List.isEmpty_iff] at hterm
        obtain ⟨hnd2, hlt2, hz2⟩ := inst_fields_place
          (instL_place_fin { s with pullQ := rest } i)
          hndi.1 hndi.2 hlt_all hlt_i rfl hzero'
        refine ⟨⟨⟨hc.cursor_le, hc.started_lt, hc.started_nd, hc.split_mem,
          hc.disj_ci, hc.inflight_nd, hc.completed_nd, hc.targets_nd,
          hc.active_iff, hc.active_nd, hc.cap, hc.pkeys_nd, hc.pne, hc.pkey,
          hc.cbs, hc.rsnap, hc.rne, hnd2, hlt2, hc.ninst_eq⟩,
          hc.order, ?_⟩, hq, hz2⟩
        intro _
        exact ⟨hnle, hterm.1, hterm.2⟩
      · rw [if_neg hterm]
        simp only [Bool.and_eq_true, List.isEmpty_iff, not_and] at hterm
        have hne : s.inflight ≠ [] := by
          intro hnil
          have hpne : s.pending ≠ [] := by
            intro hpnil
            exact hterm hnil hpnil
          obtain ⟨e, he⟩ := List.exists_mem_of_ne_nil _ hpne
          rcases hq e he with hact | hsz
          · have := (hc.active_iff e.1).mp hact
            rw [hnil] at this
            cases this
          · rcases sizeLt_false_iff.mp hsz with ⟨hlim, hle⟩
            rw [hnil] at hle
            simp at hle
            omega
        refine place_race_inv { s with pullQ := rest }
          ⟨⟨hc.cursor_le, hc.started_lt, hc.started_nd,
          hc.split_mem, hc.disj_ci, hc.inflight_nd, hc.completed_nd,
          hc.targets_nd, hc.active_iff, hc.active_nd, hc.cap, hc.pkeys_nd,
          hc.pne, hc.pkey, hc.cbs, hc.rsnap, hc.rne, hndi.1, hlt_all,
          hc.ninst_eq⟩, hc.order, hc.fin_inv⟩ hq hndi.2 hlt_i hzero' hne

theorem run0_core (cfg : Cfg) : Core cfg run0 := by
  refine ⟨⟨?_, ?_, ?_, ?_, ?_, ?_, ?_, ?_, ?_, ?_, ?_, ?_, ?_, ?_, ?_, ?_, ?_,
    ?_, ?_, ?_⟩, ?_, ?_⟩ <;> simp [run0, instL, pget, arrivals]

/-- The state reached by `run`'s initial `processNext()` call satisfies the
invariant. -/
theorem initState_inv (cfg : Cfg) : SchedInv cfg (initState cfg) := by
  refine processNextTop_inv (run0_core cfg) ?_ ?_ (Or.inr rfl)
  · simp [instL, run0]
  · simp [run0]

theorem step_inv {cfg : Cfg} {s : Sched} (h : SchedInv cfg s) (e : Ev) :
    SchedInv cfg (step cfg s e) := by
  cases e with
  | deliver => exact stepDeliver_inv h
  | complete t ok => exact stepComplete_inv h
  | wake i => exact stepWake_inv h

theorem foldl_inv {cfg : Cfg} :
    ∀ (evs : List Ev) (s : Sched), SchedInv cfg s →
      SchedInv cfg (evs.foldl (step cfg) s) := by
  intro evs
  induction evs with
  | nil => intro s h; exact h
  | cons e rest ih =>
    intro s h
    exact ih _ (step_inv h e)

/-- Every state reachable by any sequence of external events satisfies the
invariant. -/
theorem exec_inv (cfg : Cfg) (evs : List Ev) : SchedInv cfg (exec cfg evs) :=
  foldl_inv evs _ (initState_inv cfg)

/-- Number of settled races awaiting their wake-up microtask. -/
def settledCount (rs : List (Nat × List Nat × Option Bool)) : Nat :=
  (rs.filter fun r => r.2.2.isSome).length

/-- Termination measure: the lexicographic tuple (tasks not yet settled,
source items not yet delivered, settled races awaiting wake-up, outstanding
pulls), base-`K` encoded with `K = |source| + 2`. -/
def muSched (cfg : Cfg) (s : Sched) : Nat :=
  (((cfg.tgts.length - s.completedL.length) * (cfg.tgts.length + 2)
      + (cfg.tgts.length - s.cursor)) * (cfg.tgts.length + 2)
    + settledCount s.racers) * (cfg.tgts.length + 2)
  + s.pullQ.length

theorem pairLt {K x y u v : Nat} (h : x < y) (hu : u < K) :
    x * K + u < y * K + v := by
  have h1 : x * K + u < (x + 1) * K := by
    have : (x + 1) * K = x * K + K := by ring
    omega
  have h2 : (x + 1) * K ≤ y * K := Nat.mul_le_mul_right K h
  omega

theorem processNextTop_mu_frame (cfg : Cfg) (i : Nat) (s : Sched) :
    (processNextTop cfg i s).completedL = s.completedL
    ∧ (processNextTop cfg i s).cursor = s.cursor
    ∧ settledCount (processNextTop cfg i s).racers = settledCount s.racers := by
  have hfr := promoteLoop_frame cfg (pendCount s.pending) s
  simp only [processNextTop]
  split
  · exact ⟨hfr.2.2.2.2.2.2, hfr.1, by rw [hfr.2.2.1]⟩
  · refine ⟨hfr.2.2.2.2.2.2, hfr.1, ?_⟩
    simp only [settledCount, List.filter_append]
    rw [hfr.2.2.1]
    simp

theorem settledCount_removeRacer_le (i : Nat)
    (rs : List (Nat × List Nat × Option Bool)) :
    settledCount (removeRacer i rs) ≤ settledCount rs :=
  List.Sublist.length_le (((List.filter_sublist rs)).filter _)

theorem filter_and_sublist {α : Type} (p q : α → Bool) (l : List α) :
    List.Sublist (l.filter fun a => p a && q a) (l.filter p) := by
  induction l with
  | nil => exact List.Sublist.refl _
  | cons y rest ih =>
    simp only [List.filter]
    cases hpq : p y && q y with
    | true =>
      rw [(Bool.and_eq_true _ _).mp hpq |>.1]
      exact List.Sublist.cons₂ y ih
    | false =>
      cases hp : p y with
      | true => exact List.Sublist.cons y ih
      | false => exact ih

theorem filter_and_length_lt {α : Type} {p q : α → Bool} {l : List α} {x : α}
    (hx : x ∈ l) (hp : p x = true) (hq : q x = false) :
    (l.filter fun a => p a && q a).length < (l.filter p).length := by
  induction l with
  | nil => cases hx
  | cons y rest ih =>
    rcases List.mem_cons.mp hx with h1 | h2
    · rw [← h1]
      simp only [List.filter, hp, hq, Bool.and_false]
      have := (filter_and_sublist p q rest).length_le
      simp only [List.length_cons]
      omega
    · have hih := ih h2
      simp only [List.filter]
      cases hpy : p y with
      | true =>
        cases hqy : q y <;> simp only [Bool.and_true, Bool.and_false,
          List.length_cons] <;> omega
      | false =>
        simp only [Bool.false_and]
        exact hih

theorem settledCount_removeRacer_lt {i : Nat} {snap : List Nat} {ok : Bool}
    {rs : List (Nat × List Nat × Option Bool)}
    (hmem : (i, snap, some ok) ∈ rs) :
    settledCount (removeRacer i rs) < settledCount rs := by
  have he : settledCount (removeRacer i rs)
      = (rs.filter fun a => a.2.2.isSome && (a.1 != i)).length := by
    simp only [settledCount, removeRacer, List.filter_filter]
  rw [he]
  exact filter_and_length_lt hmem rfl (by simp)

theorem completed_le {cfg : Cfg} {s : Sched} (hc : Core cfg s) :
    s.completedL.length ≤ cfg.tgts.length := by
  refine nodup_length_le hc.completed_nd ?_
  intro x hx
  have hxs : x ∈ s.started := (hc.split_mem x).mpr (Or.inl hx)
  exact Nat.lt_of_lt_of_le (hc.started_lt x hxs) hc.cursor_le

theorem instL_len_le {cfg : Cfg} {s : Sched} (hc : Core cfg s) :
    (instL s).length ≤ cfg.tgts.length + 1 := by
  have h1 : (instL s).length ≤ s.nextInst := nodup_length_le hc.inst_nd hc.inst_lt
  have h2 := hc.ninst_eq
  have h3 := completed_le hc
  omega

theorem mu_bounds {cfg : Cfg} {s : Sched} (hc : Core cfg s) :
    settledCount s.racers < cfg.tgts.length + 2 ∧
    s.pullQ.length < cfg.tgts.length + 2 := by
  have hlen := instL_len_le hc
  have hIL : (instL s).length = s.pullQ.length + s.racers.length
      + s.finished.length + s.crashed.length := by
    simp [instL]
    omega
  have hsettled : settledCount s.racers ≤ s.racers.length :=
    (List.filter_sublist _).length_le
  omega

theorem mu_lt_of_m1 {K m1 m1' m2 m2' m4 m4' m3 m3' : Nat}
    (h1 : m1' < m1) (h2 : m2' < K) (h4 : m4' < K) (h3 : m3' < K) :
    ((m1' * K + m2') * K + m4') * K + m3'
      < ((m1 * K + m2) * K + m4) * K + m3 :=
  pairLt (pairLt (pairLt h1 h2) h4) h3

theorem mu_lt_of_m2 {K m1 m1' m2 m2' m4 m4' m3 m3' : Nat}
    (h1 : m1' = m1) (h2 : m2' < m2) (h4 : m4' < K) (h3 : m3' < K) :
    ((m1' * K + m2') * K + m4') * K + m3'
      < ((m1 * K + m2) * K + m4) * K + m3 := by
  have hA : m1' * K + m2' < m1 * K + m2 := by
    rw [h1]
    exact Nat.add_lt_add_left h2 _
  exact pairLt (pairLt hA h4) h3

theorem mu_lt_of_m4 {K m1 m1' m2 m2' m4 m4' m3 m3' : Nat}
    (h1 : m1' = m1) (h2 : m2' = m2) (h4 : m4' < m4) (h3 : m3' < K) :
    ((m1' * K + m2') * K + m4') * K + m3'
      < ((m1 * K + m2) * K + m4) * K + m3 := by
  have hB : (m1' * K + m2') * K + m4' < (m1 * K + m2) * K + m4 := by
    rw [h1, h2]
    exact Nat.add_lt_add_left h4 _
  exact pairLt hB h3

theorem mu_lt_of_m3 {K m1 m1' m2 m2' m4 m4' m3 m3' : Nat}
    (h1 : m1' = m1) (h2 : m2' = m2) (h4 : m4' = m4) (h3 : m3' < m3) :
    ((m1' * K + m2') * K + m4') * K + m3'
      < ((m1 * K + m2) * K + m4) * K + m3 := by
  rw [h1, h2, h4]
  exact Nat.add_lt_add_left h3 _

theorem deliver_effects (cfg : Cfg) {s : Sched} {i : Nat} {rest : List Nat}
    (hpq : s.pullQ = i :: rest) :
    (step cfg s Ev.deliver).completedL = s.completedL
    ∧ (s.cursor < cfg.tgts.length →
        (step cfg s Ev.deliver).cursor = s.cursor + 1)
    ∧ (¬s.cursor < cfg.tgts.length →
        (step cfg s Ev.deliver).cursor = s.cursor
        ∧ settledCount (step cfg s Ev.deliver).racers = settledCount s.racers
        ∧ (step cfg s Ev.deliver).pullQ.length + 1 = s.pullQ.length) := by
  have hred : step cfg s Ev.deliver
      = if s.cursor < cfg.tgts.length then
          processNextItem cfg i s.cursor
            { s with pullQ := rest, cursor := s.cursor + 1 }
        else processNextDone cfg i { s with pullQ := rest } := by
    simp only [step, stepDeliver, hpq]
  rw [hred]
  by_cases hcur : s.cursor < cfg.tgts.length
  · rw [if_pos hcur]
    have hcomp : ∀ s0 : Sched, (processNextItem cfg i s.cursor s0).completedL
        = s0.completedL ∧ (processNextItem cfg i s.cursor s0).cursor
        = s0.cursor := by
      intro s0
      simp only [processNextItem]
      split
      · exact ⟨(processNextTop_mu_frame cfg i _).1,
          (processNextTop_mu_frame cfg i _).2.1⟩
      · exact ⟨(processNextTop_mu_frame cfg i _).1,
          (processNextTop_mu_frame cfg i _).2.1⟩
    refine ⟨(hcomp _).1, fun _ => (hcomp _).2, fun hn => absurd hcur hn⟩
  · rw [if_neg hcur]
    refine ⟨?_, fun hcc => absurd hcc hcur, fun _ => ⟨?_, ?_, ?_⟩⟩ <;>
      simp only [processNextDone] <;> split <;>
      simp [settledCount, List.filter_append, hpq]

theorem complete_effects (cfg : Cfg) (ok : Bool) {s : Sched} {t : Nat}
    (ht : t ∈ s.inflight) :
    (step cfg s (Ev.complete t ok)).completedL.length
      = s.completedL.length + 1 := by
  have hred : step cfg s (Ev.complete t ok) = stepComplete cfg t ok s := rfl
  rw [hred]
  simp only [stepComplete, if_pos ht]
  rw [(processNextTop_mu_frame cfg _ _).1]
  simp

theorem wake_effects (cfg : Cfg) {s : Sched} {i : Nat} {ok : Bool}
    (hfs : findSettled i s.racers = some ok) :
    (step cfg s (Ev.wake i)).completedL = s.completedL
    ∧ (step cfg s (Ev.wake i)).cursor = s.cursor
    ∧ settledCount (step cfg s (Ev.wake i)).racers < settledCount s.racers := by
  obtain ⟨snap, hmem⟩ := findSettled_mem hfs
  have hlt := settledCount_removeRacer_lt hmem
  have hred : step cfg s (Ev.wake i) = stepWake cfg i s := rfl
  rw [hred]
  simp only [stepWake, hfs]
  cases ok with
  | true =>
    rw [if_pos rfl]
    refine ⟨(processNextTop_mu_frame cfg i _).1,
      (processNextTop_mu_frame cfg i _).2.1, ?_⟩
    rw [(processNextTop_mu_frame cfg i _).2.2]
    exact hlt
  | false =>
    rw [if_neg Bool.false_ne_true]
    exact ⟨rfl, rfl, hlt⟩

/-- Every enabled external event strictly decreases the termination
measure. -/
theorem mu_dec {cfg : Cfg} {s : Sched} (h : SchedInv cfg s) {e : Ev}
    (he : enabledB s e = true) : muSched cfg (step cfg s e) < muSched cfg s := by
  have h' := step_inv h e
  obtain ⟨hc', _, _⟩ := h'
  obtain ⟨hc, hq, hz⟩ := h
  have hb' := mu_bounds hc'
  have hm2' : cfg.tgts.length - (step cfg s e).cursor < cfg.tgts.length + 2 := by
    omega
  simp only [muSched]
  cases e with
  | deliver =>
    simp only [enabledB, Bool.not_eq_true'] at he
    cases hpq : s.pullQ with
    | nil => rw [hpq] at he; simp at he
    | cons i rest =>
      obtain ⟨he1, he2, he3⟩ := deliver_effects cfg hpq
      by_cases hcur : s.cursor < cfg.tgts.length
      · exact mu_lt_of_m2 (by rw [he1]) (by rw [he2 hcur]; omega) hb'.1 hb'.2
      · obtain ⟨hcu, hst, hpl⟩ := he3 hcur
        have hgoal : (step cfg s Ev.deliver).pullQ.length < (i :: rest).length := by
          have hlen := congrArg List.length hpq
          simp only [List.length_cons] at hlen ⊢
          omega
        exact mu_lt_of_m3 (by rw [he1]) (by rw [hcu]) (by rw [hst]) hgoal
  | complete t ok =>
    simp only [enabledB, decide_eq_true_eq] at he
    have heff := complete_effects cfg ok he
    have hle' := completed_le hc'
    exact mu_lt_of_m1 (by omega) hm2' hb'.1 hb'.2
  | wake i =>
    simp only [enabledB, Option.isSome_iff_exists] at he
    obtain ⟨ok, hfs⟩ := he
    obtain ⟨he1, he2, he3⟩ := wake_effects cfg hfs
    exact mu_lt_of_m4 (by rw [he1]) (by rw [he2]) he3 hb'.2

/-- A schedule of enabled events can run for at most `muSched` of the
initial state many steps: the system has no infinite execution. -/
theorem valid_length_le {cfg : Cfg} :
    ∀ (evs : List Ev) (s : Sched), SchedInv cfg s → ValidFrom cfg s evs →
      evs.length ≤ muSched cfg s := by
  intro evs
  induction evs with
  | nil => intro s _ _; exact Nat.zero_le _
  | cons e rest ih =>
    intro s hs hv
    obtain ⟨hen, hv'⟩ := hv
    have h1 := ih _ (step_inv hs e) hv'
    have h2 := mu_dec hs hen
    simp only [List.length_cons]
    have h3 : rest.foldl (step cfg) (step cfg s e)
        = (e :: rest).foldl (step cfg) s := rfl
    omega

theorem findSettled_of_mem {i : Nat} {snap : List Nat} {ok : Bool}
    {rs : List (Nat × List Nat × Option Bool)}
    (hmem : (i, snap, some ok) ∈ rs) : (findSettled i rs).isSome = true := by
  induction rs with
  | nil => cases hmem
  | cons r rest ih =>
    simp only [findSettled]
    by_cases hcnd : r.1 = i ∧ r.2.2.isSome = true
    · rw [if_pos hcnd]
      exact hcnd.2
    · rw [if_neg hcnd]
      rcases List.mem_cons.mp hmem with h1 | h2
      · exact absurd ⟨by rw [← h1], by rw [← h1]; rfl⟩ hcnd
      · exact ih h2

/-- Deadlock-freedom: in a state where no external event can fire, the
invocation `run` awaits has either returned or rejected. -/
theorem terminal_resolved {cfg : Cfg} {s : Sched} (h : SchedInv cfg s)
    (ht : ∀ e, enabledB s e = false) :
    0 ∈ s.finished ∨ 0 ∈ s.crashed := by
  obtain ⟨hc, hq, hz⟩ := h
  have hp : s.pullQ = [] := by
    have hd := ht Ev.deliver
    simp only [enabledB] at hd
    cases hpe : s.pullQ.isEmpty with
    | true => exact List.isEmpty_iff.mp hpe
    | false => simp [hpe] at hd
  have hinf : ∀ t, t ∉ s.inflight := by
    intro t htm
    have hcmp := ht (Ev.complete t true)
    simp only [enabledB, decide_eq_false_iff_not] at hcmp
    exact hcmp htm
  simp only [instL, List.mem_append] at hz
  rcases hz with ((h0P | h0M) | h0F) | h0C
  · rw [hp] at h0P
    cases h0P
  · exfalso
    obtain ⟨r, hr, hfst⟩ := List.mem_map.mp h0M
    obtain ⟨ri, snap, tok⟩ := r
    cases tok with
    | none =>
      have hsnap := hc.rsnap _ hr rfl
      have hne := hc.rne _ hr
      obtain ⟨x, hx⟩ := List.exists_mem_of_ne_nil _ hne
      exact hinf x (hsnap x hx)
    | some ok =>
      have hiss := findSettled_of_mem hr
      have hw := ht (Ev.wake ri)
      simp only [enabledB] at hw
      rw [hw] at hiss
      cases hiss
  · exact Or.inl h0F
  · exact Or.inr h0C

/-- C1: mutual exclusion by target.  In every reachable state of every run,
no two in-flight tasks (tasks whose executor invocation has started but not
completed) share a `targetId`: the multiset of targets of `activePromises`
members has no duplicate, equivalently any two distinct in-flight tasks have
distinct targets. -/
theorem C1_mutual_exclusion_by_target (cfg : Cfg) (evs : List Ev) :
    ((exec cfg evs).inflight.map (tgtOf cfg)).Nodup
    ∧ ∀ a ∈ (exec cfg evs).inflight, ∀ b ∈ (exec cfg evs).inflight,
        a ≠ b → tgtOf cfg a ≠ tgtOf cfg b := by
  refine ⟨(exec_inv cfg evs).1.targets_nd, ?_⟩
  intro a ha b hb hne ht
  exact hne (List.inj_on_of_nodup_map (exec_inv cfg evs).1.targets_nd ha hb ht)

/-- Witness for C1 at a concrete run: two tasks with targets 3 and 4 both in
flight have distinct targets. -/
theorem C1_mutual_exclusion_witness :
    tgtOf ⟨[3, 4], 0⟩ 0 ≠ tgtOf ⟨[3, 4], 0⟩ 1 :=
  (C1_mutual_exclusion_by_target ⟨[3, 4], 0⟩ [Ev.deliver, Ev.deliver]).2
    0 (by decide) 1 (by decide) (by decide)

/-- C2: per-target order preservation.  In every reachable state, the
executor invocations of tasks sharing a target occur in source order (the
same-target subsequence of `started` is strictly increasing), and whenever a
later same-target task has started, every earlier one has already completed
(and in particular started). -/
theorem C2_per_target_order (cfg : Cfg) (evs : List Ev) :
    (∀ T, ((exec cfg evs).started.filter fun k => tgtOf cfg k == T).Pairwise
        (· < ·))
    ∧ ∀ i j, i < j → tgtOf cfg i = tgtOf cfg j → j ∈ (exec cfg evs).started →
        i ∈ (exec cfg evs).completedL ∧ i ∈ (exec cfg evs).started := by
  obtain ⟨hc, hq, hz⟩ := exec_inv cfg evs
  constructor
  · intro T
    have hsorted := arrivals_sorted cfg (exec cfg evs).cursor T
    rw [← hc.order T] at hsorted
    exact (List.pairwise_append.mp hsorted).1
  · intro i j hij ht hj
    have hcm := hc.cbs i j hij ht hj
    exact ⟨hcm, (hc.split_mem i).mpr (Or.inl hcm)⟩

/-- Witness for C2 at a concrete run: two tasks on the same target 5; once
the second has started, the first has completed. -/
theorem C2_per_target_order_witness :
    0 ∈ (exec ⟨[5, 5], 1⟩
        [Ev.deliver, Ev.deliver, Ev.complete 0 true]).completedL
    ∧ 0 ∈ (exec ⟨[5, 5], 1⟩
        [Ev.deliver, Ev.deliver, Ev.complete 0 true]).started :=
  (C2_per_target_order ⟨[5, 5], 1⟩
      [Ev.deliver, Ev.deliver, Ev.complete 0 true]).2
    0 1 (by decide) (by decide) (by decide)

/-- C3: concurrency cap.  For every run with `maxThreads > 0`, in every
reachable state the number of in-flight tasks (the size of
`activePromises`) never exceeds `maxThreads`. -/
theorem C3_concurrency_cap (tgts : List Nat) (maxThreads : Int)
    (hpos : 0 < maxThreads) (evs : List Ev) :
    ((exec (mkCfg tgts maxThreads) evs).inflight.length : Int) ≤ maxThreads := by
  have hcap := (exec_inv (mkCfg tgts maxThreads) evs).1.cap
  have hlim : (mkCfg tgts maxThreads).limit = maxThreads.toNat := by
    simp only [mkCfg, normalizeLimit]
    omega
  rw [hlim] at hcap
  have hne : maxThreads.toNat ≠ 0 := by omega
  have := hcap hne
  omega

/-- Witness for C3 at a concrete run: three distinct-target deliveries under
limit 2 leave at most 2 tasks in flight. -/
theorem C3_concurrency_cap_witness :
    (0 : Int) < 2
    ∧ ((exec (mkCfg [1, 2, 3] 2)
        [Ev.deliver, Ev.deliver, Ev.deliver]).inflight.length : Int) ≤ 2 :=
  ⟨by decide, C3_concurrency_cap [1, 2, 3] 2 (by decide)
    [Ev.deliver, Ev.deliver, Ev.deliver]⟩

/-- C4 (code evaluated at the failing input): a single task on target 7,
limit 1; the source is exhausted, and the executor promise rejects while the
awaited invocation 0 waits at `await Promise.race(activePromises)` (line
69).  The race rejects with the task's error, invocation 0 dies, and `run`
itself rejects (crashed = [0], finished = []) even though the target was
freed, the bookkeeping drained, and the source is exhausted — contradicting
the claim that `run` completes without re-raising individual task errors.
In JavaScript this interleaving is real: the promise settles after `run`'s
loop has reached the wait step, the `finally` reaction runs first and frees
the state, then the race's rejection reaction rejects invocation 0. -/
theorem C4_failure_rejects_run :
    (exec ⟨[7], 1⟩ [Ev.deliver, Ev.deliver, Ev.complete 0 false,
        Ev.wake 0]).crashed = [0]
    ∧ (exec ⟨[7], 1⟩ [Ev.deliver, Ev.deliver, Ev.complete 0 false,
        Ev.wake 0]).finished = []
    ∧ (exec ⟨[7], 1⟩ [Ev.deliver, Ev.deliver, Ev.complete 0 false,
        Ev.wake 0]).completedL = [0]
    ∧ (exec ⟨[7], 1⟩ [Ev.deliver, Ev.deliver, Ev.complete 0 false,
        Ev.wake 0]).cursor = 1
    ∧ (exec ⟨[7], 1⟩ [Ev.deliver, Ev.deliver, Ev.complete 0 false,
        Ev.wake 0]).activeT = []
    ∧ (exec ⟨[7], 1⟩ [Ev.deliver, Ev.deliver, Ev.complete 0 false,
        Ev.wake 0]).pending = [] := by
  decide

/-- C5 counterexample: tasks on targets 1 and 2, limit 1; task 0 fails while
invocation 0 races its promise and task 1 has just been promoted.  `run`
terminates (rejects: crashed = [0]) while task 1 is still in flight — so the
claim that `run` terminates exactly when the source is exhausted, nothing is
in flight and nothing is pending is false as stated. -/
theorem C5_early_rejection_counterexample :
    (exec ⟨[1, 2], 1⟩ [Ev.deliver, Ev.deliver, Ev.complete 0 false,
        Ev.wake 0]).crashed = [0]
    ∧ (exec ⟨[1, 2], 1⟩ [Ev.deliver, Ev.deliver, Ev.complete 0 false,
        Ev.wake 0]).inflight = [1] := by
  decide

/-- C5 (amended): for every finite source, every schedule of enabled events
is finite (bounded by the measure of the initial state, so `run` cannot run
forever); in any state where no event can fire any more, the invocation
`run` awaits has returned or rejected (no deadlock, no lost wake-up); and a
normal return of `run` happens only when the source is exhausted, no task is
in flight and every pending list is empty.  (A rejected executor promise
can additionally terminate `run` early by rejection, as the counterexample
shows.) -/
theorem C5_amended_termination (cfg : Cfg) (evs : List Ev)
    (hv : ValidFrom cfg (initState cfg) evs) :
    evs.length ≤ muSched cfg (initState cfg)
    ∧ ((∀ e, enabledB (exec cfg evs) e = false) →
        0 ∈ (exec cfg evs).finished ∨ 0 ∈ (exec cfg evs).crashed)
    ∧ (0 ∈ (exec cfg evs).finished →
        cfg.tgts.length ≤ (exec cfg evs).cursor
        ∧ (exec cfg evs).inflight = [] ∧ (exec cfg evs).pending = []) :=
  ⟨valid_length_le evs _ (initState_inv cfg) hv,
    fun ht => terminal_resolved (exec_inv cfg evs) ht,
    fun h0 => (exec_inv cfg evs).1.fin_inv h0⟩

/-- Witness for C5 (amended) at a concrete run: the empty source terminates
after one delivery with invocation 0 returned, in a state where no event is
enabled. -/
theorem C5_amended_termination_witness :
    1 ≤ muSched ⟨[], 1⟩ (initState ⟨[], 1⟩)
    ∧ 0 ∈ (exec ⟨[], 1⟩ [Ev.deliver]).finished
    ∧ (0 ∈ (exec ⟨[], 1⟩ [Ev.deliver]).finished
        ∨ 0 ∈ (exec ⟨[], 1⟩ [Ev.deliver]).crashed) := by
  have h := C5_amended_termination ⟨[], 1⟩ [Ev.deliver] ⟨by decide, trivial⟩
  have hS : exec ⟨[], 1⟩ [Ev.deliver]
      = ⟨0, [], [], [], [], [], 1, [0], [], [], []⟩ := by decide
  refine ⟨h.1, by decide, h.2.1 ?_⟩
  intro e
  rw [hS]
  cases e with
  | deliver => rfl
  | complete t ok => simp [enabledB]
  | wake i => rfl

/-- C6: limit normalization.  A negative `maxThreads` is normalized (line 9)
to the unbounded sentinel rather than rejected; `0` (the default) means
unbounded — the capacity comparison against the line-10 `Infinity` sentinel
always passes; and with limit 0 and five distinct-target tasks all five run
concurrently with no imposed cap. -/
theorem C6_limit_normalization :
    (∀ mt : Int, mt ≤ 0 → normalizeLimit mt = 0)
    ∧ (∀ n : Nat, sizeLt n 0 = true)
    ∧ (exec (mkCfg [1, 2, 3, 4, 5] 0)
        [Ev.deliver, Ev.deliver, Ev.deliver, Ev.deliver,
          Ev.deliver]).inflight.length = 5 := by
  refine ⟨fun mt hmt => ?_, fun n => ?_, ?_⟩
  · simp only [normalizeLimit]
    omega
  · simp [sizeLt]
  · decide

/-- Witness for C6: the negative limit -3 normalizes to the unbounded
sentinel. -/
theorem C6_limit_normalization_witness :
    (-3 : Int) ≤ 0 ∧ normalizeLimit (-3) = 0 :=
  ⟨by decide, C6_limit_normalization.1 (-3) (by decide)⟩

/-- C7: exactly-once execution.  In every reachable state the executor
invocation record has no duplicates (no task is ever executed twice), and
when `run` has returned normally, every task of the source was executed
exactly once (none dropped). -/
theorem C7_exactly_once (cfg : Cfg) (evs : List Ev) :
    (exec cfg evs).started.Nodup
    ∧ (0 ∈ (exec cfg evs).finished →
        ∀ i, i < cfg.tgts.length → (exec cfg evs).started.count i = 1) := by
  obtain ⟨hc, hq, hz⟩ := exec_inv cfg evs
  refine ⟨hc.started_nd, fun h0 i hi => ?_⟩
  obtain ⟨hcur, hinf, hpnd⟩ := hc.fin_inv h0
  have hiarr : i ∈ arrivals cfg (exec cfg evs).cursor (tgtOf cfg i) :=
    mem_arrivals.mpr ⟨Nat.lt_of_lt_of_le hi hcur, rfl⟩
  rw [← hc.order (tgtOf cfg i)] at hiarr
  rcases List.mem_append.mp hiarr with hf | hpg
  · exact List.count_eq_one_of_mem hc.started_nd (List.mem_filter.mp hf).1
  · rw [hpnd] at hpg
    simp [pget] at hpg

/-- Witness for C7 at a concrete completed run: one task, executed exactly
once. -/
theorem C7_exactly_once_witness :
    (exec ⟨[4], 1⟩ [Ev.deliver, Ev.deliver, Ev.complete 0 true, Ev.wake 0,
        Ev.deliver, Ev.deliver]).started.count 0 = 1 :=
  (C7_exactly_once ⟨[4], 1⟩ [Ev.deliver, Ev.deliver, Ev.complete 0 true,
      Ev.wake 0, Ev.deliver, Ev.deliver]).2 (by decide) 0 (by decide)

/-- C8 (code evaluated at the failing input): tasks on targets 1, 2, 3 with
limit 1.  Invocation 0 pulls and launches task 0, pulls task 1 into the
pending list, and waits at the race; when task 0 settles, the `finally`
spawns invocation 1, which promotes task 1 and suspends at
`await iterator.next()`; the race then wakes invocation 0, which also
reaches `await iterator.next()`.  Both `next()` calls are now outstanding
concurrently (`pullQ = [1, 0]`) — the scheduler is not a single sequential
consumer of the source.  The interleaving is real JavaScript: the `finally`
reaction (subscribed at launch) runs before the race reaction. -/
theorem C8_two_concurrent_pulls :
    (exec ⟨[1, 2, 3], 1⟩ [Ev.deliver, Ev.deliver, Ev.complete 0 true,
        Ev.wake 0]).pullQ = [1, 0] := by
  decide

/-- C9: the wait step never waits on nothing.  Every `Promise.race` the
scheduler is suspended on was given a non-empty snapshot of
`activePromises`: the loop never awaits a race over the empty set. -/
theorem C9_race_never_empty (cfg : Cfg) (evs : List Ev)
    (r : Nat × List Nat × Option Bool) (hr : r ∈ (exec cfg evs).racers) :
    r.2.1 ≠ [] :=
  (exec_inv cfg evs).1.rne r hr

/-- Witness for C9 at a concrete run reaching the wait step. -/
theorem C9_race_never_empty_witness :
    ((0, [0], (none : Option Bool))
        ∈ (exec ⟨[1, 2], 1⟩ [Ev.deliver, Ev.deliver]).racers)
    ∧ ([0] : List Nat) ≠ [] :=
  ⟨by decide, C9_race_never_empty ⟨[1, 2], 1⟩ [Ev.deliver, Ev.deliver]
    (0, [0], none) (by decide)⟩

/-- C10: pending-index normalization.  In every reachable state every value
stored in `pendingTasks` is a non-empty list, so the map is empty exactly
when no task at all is pending. -/
theorem C10_pending_lists_nonempty (cfg : Cfg) (evs : List Ev) :
    (∀ e ∈ (exec cfg evs).pending, e.2 ≠ [])
    ∧ ((exec cfg evs).pending = []
        ↔ ∀ T, pget T (exec cfg evs).pending = []) := by
  obtain ⟨hc, hq, hz⟩ := exec_inv cfg evs
  refine ⟨hc.pne, ⟨fun hnil T => by rw [hnil]; rfl, fun hall => ?_⟩⟩
  cases hpd : (exec cfg evs).pending with
  | nil => rfl
  | cons e rest =>
    exfalso
    obtain ⟨T, ts⟩ := e
    have hkey := hall T
    rw [hpd] at hkey
    simp [pget] at hkey
    exact hc.pne (T, ts) (by rw [hpd]; exact List.mem_cons_self _ _) hkey

/-- Witness for C10 at a concrete run with a queued task. -/
theorem C10_pending_lists_nonempty_witness :
    ((2, [1]) ∈ (exec ⟨[1, 2], 1⟩ [Ev.deliver, Ev.deliver]).pending)
    ∧ ([1] : List Nat) ≠ [] :=
  ⟨by decide, (C10_pending_lists_nonempty ⟨[1, 2], 1⟩
      [Ev.deliver, Ev.deliver]).1 (2, [1]) (by decide)⟩
